import Mathlib

/-!
# Sliding-tile puzzle server (`sp-pipe-server.c`)

A shallow embedding of the server side of the sliding-tile game.  The C globals
(`board`, `boardSize`, `rows`, `cols`, `maxTileValue`, `randomPool`,
`gamesPlayed`, `isLoadingGame`, `location`) become the fields of one `Session`
record that every operation takes and returns.

Modelling conventions.
* C `int` is `Int`.  Every value the program computes stays far inside the
  32-bit range (sizes are at most 9, tiles at most three digits), except the
  counter `gamesPlayed`: its increment is taken modulo `2^32` (`wrapInt`), as
  the compiled program does it.
* `int **board` is a function from row and column to the cell value.  The
  program only ever touches cells with both indices in `[0, boardSize)`.
* `for (i = 0; i < boardSize; i++) for (j = 0; j < boardSize; j++)` is an
  iteration over `cellIndices boardSize`, the row-major list of index pairs.
* `rand()` is a list of raw draws handed to the generator; running out of
  draws is the model of a generation that never finishes.
* `malloc` returns memory with indeterminate contents: the contents are a
  parameter (`fresh`) of every allocation.
-/

namespace SlidingTile

/-! ## Data model -/

/-- The C constant `emptyTileValue`. -/
def emptyTileValue : Int := -1

/-- The global variables of `sp-pipe-server.c`. -/
structure Session where
  board : Int → Int → Int
  boardSize : Int
  rows : Int
  cols : Int
  maxTileValue : Int
  randomPool : Int → Int
  gamesPlayed : Int
  isLoadingGame : Int
  location : Int × Int

/-- The globals at program start: zero-initialised, `board = NULL`. -/
def startup : Session where
  board := fun _ _ => 0
  boardSize := 0
  rows := 0
  cols := 0
  maxTileValue := 0
  randomPool := fun _ => 0
  gamesPlayed := 0
  isLoadingGame := 0
  location := (0, 0)

/-- The 32-bit `int` that holds the result `x` of an `int` computation: the
two's complement value congruent to `x` modulo `2^32`. -/
def wrapInt (x : Int) : Int := (x + 2147483648) % 4294967296 - 2147483648

/-- The values taken by `k` in `for (int k = lo; k < hi; k++)`. -/
def intRangeFrom (lo hi : Int) : List Int :=
  (List.range (hi - lo).toNat).map fun (k : Nat) => lo + (k : Int)

/-- The values taken by `k` in `for (int k = 0; k < n; k++)`. -/
def intRange (n : Int) : List Int := intRangeFrom 0 n

/-- The index pairs visited by the nested loops over an `n` by `n` board,
in the order the loops visit them (row-major). -/
def cellIndices (n : Int) : List (Int × Int) :=
  (intRange n).flatMap fun i => (intRange n).map fun j => (i, j)

/-- The tile values of the board read in row-major order. -/
def boardCells (s : Session) : List Int :=
  (cellIndices s.boardSize).map fun p => s.board p.1 p.2

/-- The assignment `(board[i])[j] = value` on the cell array. -/
def writeCell (b : Int → Int → Int) (i j value : Int) : Int → Int → Int :=
  fun i2 j2 => if i2 = i ∧ j2 = j then value else b i2 j2

/-- The assignment `a[i] = value` on a one-dimensional array. -/
def writeAt (a : Int → Int) (i value : Int) : Int → Int :=
  fun k => if k = i then value else a k

/-- The tile values a valid board of size `n` holds: Empty and `1 .. n*n-1`. -/
def tileValues (n : Int) : List Int := emptyTileValue :: intRangeFrom 1 (n * n)

/-- The permutation invariant of a session with an `n` by `n` board: the
dimensions agree with `n` and each of Empty, `1`, ..., `n*n-1` occurs exactly
once among the cells. -/
def ValidBoard (n : Int) (s : Session) : Prop :=
  s.boardSize = n ∧ s.rows = n ∧ s.cols = n ∧ s.maxTileValue = n * n - 1 ∧
    ∀ v ∈ tileValues n, (boardCells s).count v = 1

instance (n : Int) (s : Session) : Decidable (ValidBoard n s) := by
  unfold ValidBoard; infer_instance

/-- A board given by its rows, for writing concrete sessions. -/
def boardOfRows (rs : List (List Int)) : Int → Int → Int :=
  fun i j => ((rs.getD i.toNat []).getD j.toNat 0)

/-- A session holding the given square board, with the derived scalars set as
`setBoardSizeAndValues` sets them. -/
def sessionOfRows (rs : List (List Int)) : Session where
  board := boardOfRows rs
  boardSize := rs.length
  rows := rs.length
  cols := rs.length
  maxTileValue := (rs.length : Int) * rs.length - 1
  randomPool := fun _ => 0
  gamesPlayed := 1
  isLoadingGame := 0
  location := (0, 0)

/-! ## Puzzle engine -/

/-- `fillRandomPool`: slot 0 holds Empty, slot `i` holds `i` for
`1 ≤ i ≤ maxTileValue`.  (`srand` reseeds the generator: the draws of each
generation are a separate parameter.) -/
def fillRandomPool (s : Session) : Session :=
  let pool0 := writeAt s.randomPool 0 (-1)
  { s with randomPool :=
      (intRangeFrom 1 (s.maxTileValue + 1)).foldl (fun pool i => writeAt pool i i) pool0 }

/-- `retrieveRandomValue`, with `r` the value returned by `rand()`.  The
function reads `maxTileValue` and reads and writes `randomPool`; it is given
those two globals and returns the value found and the new pool. -/
def retrieveRandomValue (r : Nat) (maxTileValue : Int) (randomPool : Int → Int) :
    Int × (Int → Int) :=
  let index : Int := (r : Int) % (maxTileValue + 1)
  let valueFound := randomPool index
  if valueFound = 0 then (valueFound, randomPool)
  else (valueFound, writeAt randomPool index 0)

/-- The loop `do { candidate = retrieveRandomValue(); } while (candidate == 0);`
of `setAllTiles`.  Returns the candidate, the pool and the unused draws, or
`none` when the draws run out before a nonzero candidate turns up. -/
def drawCandidate (maxTileValue : Int) :
    List Nat → (Int → Int) → Option (Int × (Int → Int) × List Nat)
  | [], _ => none
  | r :: rest, pool =>
    match retrieveRandomValue r maxTileValue pool with
    | (candidate, pool1) =>
      if candidate = 0 then drawCandidate maxTileValue rest pool1
      else some (candidate, pool1, rest)

/-- `setOneTile`. -/
def setOneTile (i j value : Int) (s : Session) : Session :=
  { s with board := writeCell s.board i j value }

/-- The nested loops of `setAllTiles` over the remaining cells, on the pool
and the cell array. -/
def setTilesLoop (maxTileValue : Int) :
    List (Int × Int) → List Nat → (Int → Int) → (Int → Int → Int) →
      Option ((Int → Int) × (Int → Int → Int))
  | [], _, pool, b => some (pool, b)
  | p :: cells, draws, pool, b =>
    match drawCandidate maxTileValue draws pool with
    | none => none
    | some (candidate, pool1, rest) =>
      setTilesLoop maxTileValue cells rest pool1 (writeCell b p.1 p.2 candidate)

/-- `setAllTiles`. -/
def setAllTiles (draws : List Nat) (s : Session) : Option Session :=
  match setTilesLoop s.maxTileValue (cellIndices s.boardSize) draws
      (fillRandomPool s).randomPool s.board with
  | none => none
  | some (pool, b) => some { s with randomPool := pool, board := b }

/-- `setBoardSizeAndValues`. -/
def setBoardSizeAndValues (newSize : Int) (s : Session) : Session :=
  { s with boardSize := newSize, rows := newSize, cols := newSize,
           maxTileValue := newSize * newSize - 1 }

/-- `tearDown` / `freeBoardMemory`: the cell memory is released; no global
variable changes. -/
def tearDown (s : Session) : Session := s

/-- `allocateMemory`: `board` points at newly allocated rows whose contents
are indeterminate (`fresh`). -/
def allocateMemory (fresh : Int → Int → Int) (s : Session) : Session :=
  { s with board := fresh }

/-- The C function `initialize` (a reserved word here).  `fresh` is the content
of the newly allocated cells and `draws` the values `rand()` returns during
this call. -/
def initializeGame (sizeOfNewBoard : Int) (fresh : Int → Int → Int) (draws : List Nat)
    (s : Session) : Option (Int × Session) :=
  if sizeOfNewBoard > 9 ∨ sizeOfNewBoard < 3 then some (0, s)
  else
    let s1 := allocateMemory fresh (setBoardSizeAndValues sizeOfNewBoard (tearDown s))
    match (if s1.isLoadingGame ≠ 1 then setAllTiles draws s1 else some s1) with
    | none => none
    | some s2 =>
      some (1, { s2 with isLoadingGame := 0, gamesPlayed := wrapInt (s2.gamesPlayed + 1) })

/-- `searchBoard`: the first cell in row-major order holding `desiredValue`
is stored in `location`; `location` keeps its old content when there is none. -/
def searchBoard (desiredValue : Int) (s : Session) : Session :=
  match (cellIndices s.boardSize).find? (fun p => s.board p.1 p.2 = desiredValue) with
  | some p => { s with location := p }
  | none => s

/-- `isMoveValid`.  The session is returned too because the two searches
overwrite `location`. -/
def isMoveValid (tileToCheck : Int) (s : Session) : Int × Session :=
  if tileToCheck < 1 ∨ tileToCheck > s.maxTileValue then (0, s)
  else
    let s1 := searchBoard tileToCheck s
    let tileToMoveI := s1.location.1
    let tileToMoveJ := s1.location.2
    let s2 := searchBoard emptyTileValue s1
    let emptyTileI := s2.location.1
    let emptyTileJ := s2.location.2
    if (tileToMoveI = emptyTileI + 1 ∨ tileToMoveI = emptyTileI - 1) ∧
        emptyTileJ = tileToMoveJ then (1, s2)
    else if (tileToMoveJ = emptyTileJ + 1 ∨ tileToMoveJ = emptyTileJ - 1) ∧
        emptyTileI = tileToMoveI then (1, s2)
    else (0, s2)

/-- `moveTile`. -/
def moveTile (desiredValue : Int) (s : Session) : Int × Session :=
  match isMoveValid desiredValue s with
  | (valid, s0) =>
    if valid ≠ 0 then
      let s1 := searchBoard desiredValue s0
      let temp := s1.location
      let s2 := searchBoard emptyTileValue s1
      let s3 := setOneTile s2.location.1 s2.location.2 desiredValue s2
      let s4 := setOneTile temp.1 temp.2 emptyTileValue s3
      (1, s4)
    else (0, s0)

/-- The body of the loops of `isWon` over the remaining cells, with the
current `expectedValue`. -/
def isWonLoop : List Int → Int → Int
  | [], _ => 1
  | currentTileValue :: cells, expectedValue =>
    if currentTileValue = expectedValue ∨ currentTileValue = -1 then
      if currentTileValue ≠ -1 then isWonLoop cells (expectedValue - 1)
      else isWonLoop cells expectedValue
    else 0

/-- `isWon`. -/
def isWon (s : Session) : Int :=
  isWonLoop (boardCells s) (s.boardSize * s.boardSize - 1)

/-! ## Persistence

The file system is what `fopen` shows of it.  A name with `content` is a file
that opens for reading and holds that text.  A name without `content` either
does not open for reading at all (`fopen` returns `NULL`), or, when
`isDirectory` holds, opens although every read from it fails without reaching
the end of the file (a directory).  `writable` tells whether the name can be
opened for writing.  A file that has been written can be read back.

A call that does not return, because the process is killed or because a loop
never ends, has the result `none`. -/

/-- The files the server can see. -/
structure FileSys where
  content : String → Option (List Char)
  isDirectory : String → Bool
  writable : String → Bool

/-- How a call of `loadBoardSize` ends: the process is killed, the loop never
ends, or the call returns `sizeTracker`. -/
inductive SizeResult where
  | killed
  | endless
  | returns (sizeTracker : Int)
  deriving DecidableEq

/-- The effect of `fopen(name, "w")`, the writes and `fclose` on the files. -/
def FileSys.store (fs : FileSys) (name : String) (text : List Char) : FileSys :=
  { fs with content := fun n => if n = name then some text else fs.content n }

/-- The characters `%d` prints for a value. -/
def decimal (v : Int) : List Char :=
  if v < 0 then '-' :: Nat.toDigits 10 v.natAbs else Nat.toDigits 10 v.toNat

/-- The characters written by `fprintf(filePtr, "%2d ", currentTileValue)`. -/
def printTile (currentTileValue : Int) : List Char :=
  List.replicate (2 - (decimal currentTileValue).length) ' ' ++
    decimal currentTileValue ++ [' ']

/-- `saveGame`: the result flag and the files afterwards. -/
def saveGame (fileName : String) (s : Session) (fs : FileSys) : Int × FileSys :=
  if fs.writable fileName then (1, fs.store fileName ((boardCells s).flatMap printTile))
  else (0, fs)

/-- The C predicate `isspace`, which `fscanf` uses to skip and delimit. -/
def isSpace (c : Char) : Bool := c = ' ' || (9 ≤ c.toNat && c.toNat ≤ 13)

/-- The white space `fscanf` skips before a conversion. -/
def skipSpace (f : List Char) : List Char := f.dropWhile isSpace

/-- `fscanf(filePtr, "%s", tempArray)` on the unread characters `f`: the
characters left unread and whether the end-of-file indicator is now set.  The
indicator is set when the read runs into the end of the file, either while
skipping white space or while collecting the token. -/
def scanToken (f : List Char) : List Char × Bool :=
  match skipSpace f with
  | [] => ([], true)
  | c :: cs =>
    match (c :: cs).dropWhile (fun x => !isSpace x) with
    | [] => ([], true)
    | d :: ds => (d :: ds, false)

/-- The loop `while (!feof(filePtr)) { fscanf(filePtr, "%s", tempArray);
sizeTracker++; }` with a bound on the number of iterations. -/
def countLoop : Nat → List Char → Bool → Int → Int
  | 0, _, _, sizeTracker => sizeTracker
  | fuel + 1, f, eof, sizeTracker =>
    if eof then sizeTracker
    else
      match scanToken f with
      | (f1, eof1) => countLoop fuel f1 eof1 (sizeTracker + 1)

/-- `loadBoardSize`.  When `fopen` fails the function sets `sizeTracker = -1`
and then calls `fclose(filePtr)` with `filePtr == NULL`: the C library reads
through the null pointer and the process is killed before the `return`.  On a
name that opens but cannot be read `fscanf` fails without setting the
end-of-file indicator, so `while (!feof(filePtr))` never ends.  On a file with
text every iteration of the loop either consumes a character or sets the
indicator, so `length + 2` iterations are never exhausted (`countLoop_fuel`). -/
def loadBoardSize (fileName : String) (fs : FileSys) : SizeResult :=
  match fs.content fileName with
  | none => if fs.isDirectory fileName then SizeResult.endless else SizeResult.killed
  | some text => SizeResult.returns (countLoop (text.length + 2) text false 0 - 1)

/-- The value of a string of decimal digits. -/
def digitsValue (ds : List Char) : Int :=
  ds.foldl (fun acc c => acc * 10 + ((c.toNat : Int) - 48)) 0

/-- `fscanf(filePtr, "%3d", &x)` on the unread characters `f`: the value
stored (none when the conversion fails) and the characters left unread.  After
white space an optional sign and decimal digits are read, three characters at
most.  A conversion that finds no digit fails: a sign that was read stays
consumed, any other character is left where it is. -/
def scanInt3 (f : List Char) : Option Int × List Char :=
  match skipSpace f with
  | [] => (none, [])
  | c :: cs =>
    if c = '-' then
      match (cs.take 2).takeWhile Char.isDigit with
      | [] => (none, cs)
      | d :: ds => (some (- digitsValue (d :: ds)), cs.drop (d :: ds).length)
    else if c = '+' then
      match (cs.take 2).takeWhile Char.isDigit with
      | [] => (none, cs)
      | d :: ds => (some (digitsValue (d :: ds)), cs.drop (d :: ds).length)
    else
      match ((c :: cs).take 3).takeWhile Char.isDigit with
      | [] => (none, c :: cs)
      | d :: ds => (some (digitsValue (d :: ds)), (c :: cs).drop (d :: ds).length)

/-- The nested loops of `loadGame` over the remaining cells: each cell is the
target of one `fscanf(filePtr, "%3d", &(board[i])[j])`. -/
def loadTilesLoop : List (Int × Int) → List Char → (Int → Int → Int) → (Int → Int → Int)
  | [], _, b => b
  | p :: cells, f, b =>
    match scanInt3 f with
    | (some v, f1) => loadTilesLoop cells f1 (writeCell b p.1 p.2 v)
    | (none, f1) => loadTilesLoop cells f1 b

/-- `(int) sqrt(size)` for `size ≥ 0`: the largest `r` with `r * r ≤ size`
(the double-precision square root is exact far beyond the sizes met here). -/
def intSqrt (size : Int) : Int :=
  (((List.range (size.toNat + 1)).filter fun r => r * r ≤ size.toNat).length : Int) - 1

/-- `loadGame`.  `fresh` is the content of the cells `initialize` allocates.
No random draw is made: `isLoadingGame` is 1 when `initialize` tests it.  The
call does not return when `loadBoardSize` does not. -/
def loadGame (fileName : String) (fresh : Int → Int → Int) (fs : FileSys) (s : Session) :
    Option (Int × Session) :=
  match loadBoardSize fileName fs with
  | SizeResult.killed => none
  | SizeResult.endless => none
  | SizeResult.returns size =>
    if size = -1 then some (0, s)
    else
      let text := (fs.content fileName).getD []
      match initializeGame (intSqrt size) fresh [] { s with isLoadingGame := 1 } with
      | none => none
      | some (_, s1) =>
        some (1, { s1 with board := loadTilesLoop (cellIndices s1.boardSize) text s1.board })

/-! ## Server loop -/

/-- A command as the server receives it: the tag of `enum menuOptions` with
the payload read after it. -/
inductive Command where
  | print
  | save (fileName : String)
  | load (fileName : String)
  | new (newSize : Int)
  | move (tileToMove : Int)
  | noAction

/-- The state of the server process: its globals and the files around it. -/
structure Server where
  session : Session
  files : FileSys

/-- What one pass of the server loop takes from outside the program: the
content of newly allocated cells and the random draws, once for the
re-initialisation after a win and once for the command itself. -/
structure CycleEnv where
  winFresh : Int → Int → Int
  winDraws : List Nat
  fresh : Int → Int → Int
  draws : List Nat

/-- The start of `serverFunction`: `initialize(4)` on the program's initial
globals. -/
def serverStart (fresh : Int → Int → Int) (draws : List Nat) (fs : FileSys) : Option Server :=
  match initializeGame 4 fresh draws startup with
  | none => none
  | some (_, s) => some ⟨s, fs⟩

/-- One pass of the `while (1)` loop of `serverFunction` in which a command
is read: the values written on the data pipe, in order, and the state
afterwards; `none` when the pass is not completed, because a board generation
runs out of draws or because `loadGame` does not return. -/
def serverCycle (recieved : Command) (env : CycleEnv) (st : Server) :
    Option (List Int × Server) :=
  let winningGame := isWon st.session
  match (if winningGame = 1 then initializeGame 4 env.winFresh env.winDraws st.session
         else some (0, st.session)) with
  | none => none
  | some (_, s1) =>
    match recieved with
    | Command.print => some (winningGame :: s1.boardSize :: boardCells s1, ⟨s1, st.files⟩)
    | Command.save fileName =>
      match saveGame fileName s1 st.files with
      | (successful, fs1) => some ([winningGame, successful], ⟨s1, fs1⟩)
    | Command.load fileName =>
      match loadGame fileName env.fresh st.files s1 with
      | none => none
      | some (successful, s2) => some ([winningGame, successful], ⟨s2, st.files⟩)
    | Command.new newSize =>
      match initializeGame newSize env.fresh env.draws s1 with
      | none => none
      | some (successful, s2) => some ([winningGame, successful], ⟨s2, st.files⟩)
    | Command.move tileToMove =>
      match moveTile tileToMove s1 with
      | (successful, s2) => some ([winningGame, successful], ⟨s2, st.files⟩)
    | Command.noAction => some ([winningGame], ⟨s1, st.files⟩)

/-- The values on the data pipe after one pass of the loop, completed or
not: `write(dataPipe[1], &winningGame, ...)` comes before anything that may
fail to return, every other write after the operation of the command has
returned. -/
def cycleWrites (recieved : Command) (env : CycleEnv) (st : Server) : List Int :=
  match serverCycle recieved env st with
  | some (out, _) => out
  | none => [isWon st.session]

/-- The server loop on a sequence of commands, each with what the pass takes
from outside; `none` when one of the passes is not completed. -/
def runCycles : List (Command × CycleEnv) → Server → Option Server
  | [], st => some st
  | (recieved, env) :: rest, st =>
    match serverCycle recieved env st with
    | none => none
    | some (_, st1) => runCycles rest st1

/-- The server states reachable from program start with the files `fs0`:
the state after `initialize(4)` and any number of passes of the loop. -/
def Reachable (fs0 : FileSys) (st : Server) : Prop :=
  ∃ (fresh : Int → Int → Int) (draws : List Nat) (inputs : List (Command × CycleEnv))
    (st0 : Server), serverStart fresh draws fs0 = some st0 ∧ runCycles inputs st0 = some st

/-! ## Proof vocabulary -/

/-- The value `fillRandomPool` stores in slot `k` of the pool. -/
def poolValue (k : Int) : Int := if k = 0 then -1 else k

/-- Every slot of the pool below `m` holds either its initial value or the
mark 0 that `retrieveRandomValue` leaves behind. -/
def PoolInv (m : Int) (pool : Int → Int) : Prop :=
  ∀ k, 0 ≤ k → k < m → pool k = 0 ∨ pool k = poolValue k

/-- The draws reach every slot of a pool of `m` slots. -/
def Covers (m : Int) (draws : List Nat) : Prop :=
  ∀ k ∈ intRange m, ∃ r ∈ draws, (r : Int) % m = k

instance (m : Int) (draws : List Nat) : Decidable (Covers m draws) := by
  unfold Covers; infer_instance

/-- The adjacency test of `isMoveValid` on the positions of the tile and of
Empty. -/
def adjacentCells (pt pe : Int × Int) : Prop :=
  ((pt.1 = pe.1 + 1 ∨ pt.1 = pe.1 - 1) ∧ pe.2 = pt.2) ∨
    ((pt.2 = pe.2 + 1 ∨ pt.2 = pe.2 - 1) ∧ pe.1 = pt.1)

instance (pt pe : Int × Int) : Decidable (adjacentCells pt pe) := by
  unfold adjacentCells; infer_instance

/-- The canonical solved arrangement of the specification: `1, 2, ..., n*n-1`
in row-major order followed by Empty in the last cell. -/
def canonicalCells (n : Int) : List Int := intRangeFrom 1 (n * n) ++ [-1]

/-- The numbered tiles of the board in row-major order, Empty left out. -/
def numberedTiles (s : Session) : List Int := (boardCells s).filter fun c => c ≠ -1

/-- The `k` consecutive values `e, e-1, ...` counted down from `e`. -/
def countDown (e : Int) (k : Nat) : List Int := (List.range k).map fun (i : Nat) => e - (i : Int)

/-- A file system holding one readable file and no directory; every name can
be written. -/
def oneFile (name : String) (text : String) : FileSys where
  content := fun n => if n = name then some text.toList else none
  isDirectory := fun _ => false
  writable := fun _ => true

/-- A file system without readable files and without directories; every name
can be written. -/
def noFiles : FileSys where
  content := fun _ => none
  isDirectory := fun _ => false
  writable := fun _ => true

/-- A file system whose only name is the directory `name`. -/
def oneDirectory (name : String) : FileSys where
  content := fun _ => none
  isDirectory := fun n => n = name
  writable := fun _ => false

/-- The text is what `saveGame` writes for some valid board of a size in
`[3,9]`. -/
def SavedText (text : List Char) : Prop :=
  ∃ (n : Int) (s : Session), 3 ≤ n ∧ n ≤ 9 ∧ ValidBoard n s ∧
    text = (boardCells s).flatMap printTile

/-- Every file that can be opened for reading holds a saved valid board. -/
def SavedFiles (fs : FileSys) : Prop :=
  ∀ (name : String) (text : List Char), fs.content name = some text → SavedText text

/-- The session holds a valid board of a size in `[3,9]` and the load flag is
clear. -/
def SessionInv (s : Session) : Prop :=
  (∃ n : Int, 3 ≤ n ∧ n ≤ 9 ∧ ValidBoard n s) ∧ s.isLoadingGame = 0

/-- The files and commands of a short run: start, save to `t1.txt`, load it
back and move tile 4. -/
def sampleRun : Option Server :=
  (serverStart (fun _ _ => 0) (List.range 16) noFiles).bind
    (runCycles
      [(Command.save "t1.txt", ⟨fun _ _ => 0, List.range 16, fun _ _ => 0, List.range 25⟩),
       (Command.load "t1.txt", ⟨fun _ _ => 0, List.range 16, fun _ _ => 0, List.range 25⟩),
       (Command.move 4, ⟨fun _ _ => 0, List.range 16, fun _ _ => 0, List.range 25⟩)])

/-- The state the short run ends in. -/
def sampleServer : Server := sampleRun.getD ⟨startup, noFiles⟩

/-- A run that loads a file of nine tokens that are all 1. -/
def onesRun : Option Server :=
  (serverStart (fun _ _ => 0) (List.range 16) (oneFile "t1.txt" "1 1 1 1 1 1 1 1 1 ")).bind
    (runCycles
      [(Command.load "t1.txt", ⟨fun _ _ => 0, List.range 16, fun _ _ => 0, []⟩)])

/-- The number of white-space-delimited tokens of a text, in the words of the
specification: the non-empty pieces between white-space characters. -/
def specTokenCount (text : List Char) : Nat :=
  ((text.splitOnP isSpace).filter fun t => !t.isEmpty).length

/-- What one pass of the server loop takes from outside in the sample runs:
newly allocated cells all hold 7 and the draws are `0, 1, ..., 15`. -/
def sevensEnv : CycleEnv := ⟨fun _ _ => 7, List.range 16, fun _ _ => 7, List.range 16⟩

/-- A run in which the load flag is left set: the server starts on the board
12 15 14 13 / _ 11 10 9 / 8 7 6 5 / 4 3 2 1, loads the empty file `e.txt`
(derived size 0) and moves tile 12, which makes the board a winning one. -/
def stuckFlagRun : Option Server :=
  (serverStart (fun _ _ => 0) [12, 15, 14, 13, 0, 11, 10, 9, 8, 7, 6, 5, 4, 3, 2, 1]
      (oneFile "e.txt" "")).bind
    (runCycles [(Command.load "e.txt", sevensEnv), (Command.move 12, sevensEnv)])

/-- The characters of one saved tile in the words of the specification: the
decimal numeral right-aligned in a field of two characters, then one space. -/
def specField (v : Int) : List Char :=
  List.replicate (2 - (toString v).toList.length) ' ' ++ (toString v).toList ++ [' ']

/-- The elements of a list that are not in `seen` and not earlier in the list,
in the order of their first appearance. -/
def firstFrom (seen : List Int) : List Int → List Int
  | [] => []
  | x :: xs => if x ∈ seen then firstFrom seen xs else x :: firstFrom (x :: seen) xs

/-- The top of one pass of the server loop: the win flag that is written and
the session after the `initialize(4)` that follows a win. -/
def cycleTop (env : CycleEnv) (s : Session) : Option (Int × Session) :=
  match (if isWon s = 1 then initializeGame 4 env.winFresh env.winDraws s
         else some (0, s)) with
  | none => none
  | some (_, s1) => some (isWon s, s1)

/-- What follows the win flag on the data pipe in one pass, and the state
afterwards, for a command handled on the session `s1`. -/
def CycleShape (recieved : Command) (env : CycleEnv) (files : FileSys) (s1 : Session)
    (rest : List Int) (st1 : Server) : Prop :=
  match recieved with
  | Command.print => rest = s1.boardSize :: boardCells s1 ∧ st1 = ⟨s1, files⟩
  | Command.save fileName =>
    rest = [(saveGame fileName s1 files).1] ∧ st1 = ⟨s1, (saveGame fileName s1 files).2⟩
  | Command.load fileName =>
    ∃ ok s2, loadGame fileName env.fresh files s1 = some (ok, s2) ∧ rest = [ok] ∧
      st1 = ⟨s2, files⟩
  | Command.new newSize =>
    ∃ ok s2, initializeGame newSize env.fresh env.draws s1 = some (ok, s2) ∧ rest = [ok] ∧
      st1 = ⟨s2, files⟩
  | Command.move tileToMove =>
    rest = [(moveTile tileToMove s1).1] ∧ st1 = ⟨(moveTile tileToMove s1).2, files⟩
  | Command.noAction => rest = [] ∧ st1 = ⟨s1, files⟩

/-- What a pass of the server loop takes from outside when its draws reach
every slot of every pool: newly allocated cells hold 0, the draws after a win
are `0 .. 15` and the draws for a New command are `0 .. 80`. -/
def fairEnv : CycleEnv := ⟨fun _ _ => 0, List.range 16, fun _ _ => 0, List.range 81⟩

/-- One item written to or read from a pipe: a 4-byte value (an `int` or a
value of `enum menuOptions`) or the 99-byte `fileName` buffer. -/
inductive Field where
  | word (value : Int)
  | name (fileName : String)

/-- The number of bytes of an item: `sizeof(int)` and `sizeof(fileName)`. -/
def Field.width : Field → Nat
  | Field.word _ => 4
  | Field.name _ => 99

/-- The values of `enum menuOptions`, shared by `sp-pipe-client.c` and
`sp-pipe-server.c`. -/
def Command.tag : Command → Int
  | Command.print => 0
  | Command.save _ => 1
  | Command.load _ => 2
  | Command.new _ => 3
  | Command.move _ => 4
  | Command.noAction => 5

/-- One pass of the loop of `clientFunction` for the menu character
`userInput`: the items it writes on the command pipe.  `fileName` and `number`
are what its `scanf` calls store for the commands that ask for them. -/
def clientWrites (userInput : Char) (fileName : String) (number : Int) : List Field :=
  if userInput = 'p' then [Field.word 0]
  else if userInput = 'q' then []
  else if userInput = 's' then [Field.word 1, Field.name fileName]
  else if userInput = 'l' then [Field.word 2, Field.name fileName]
  else if userInput = 'n' then [Field.word 3, Field.word number]
  else if userInput = 'm' then [Field.word 4, Field.word number]
  else [Field.word 5]

/-- One pass of the loop of `clientFunction`: the number of 4-byte values it
reads from the data pipe when `data` are the values it finds there.  The first
read is the win flag; for `p` the second is `boardsize` and the nested loops
read `boardsize * boardsize` more. -/
def clientReads (userInput : Char) (data : List Int) : Nat :=
  1 + (if userInput = 'p' then 1 + (data.getD 1 0).toNat * (data.getD 1 0).toNat
       else if userInput = 'q' then 0
       else if userInput = 's' then 1
       else if userInput = 'l' then 1
       else if userInput = 'n' then 1
       else if userInput = 'm' then 1
       else 0)

/-- The reads of one pass of the server loop from the command pipe: the
4-byte tag, then 99 bytes for Save and Load or 4 bytes for New and Move.  The
result is the command and the items left unread, or `none` when an item on the
pipe does not have the width the read asks for.  A tag outside the
enumeration matches no branch of the server: like NoAction, nothing further is
read or written. -/
def serverReads : List Field → Option (Command × List Field)
  | Field.word recieved :: rest =>
    if recieved = 0 then some (Command.print, rest)
    else if recieved = 1 then
      match rest with
      | Field.name fileName :: rest1 => some (Command.save fileName, rest1)
      | _ => none
    else if recieved = 2 then
      match rest with
      | Field.name fileName :: rest1 => some (Command.load fileName, rest1)
      | _ => none
    else if recieved = 3 then
      match rest with
      | Field.word newSize :: rest1 => some (Command.new newSize, rest1)
      | _ => none
    else if recieved = 4 then
      match rest with
      | Field.word tileToMove :: rest1 => some (Command.move tileToMove, rest1)
      | _ => none
    else some (Command.noAction, rest)
  | _ => none

/-- The command a menu character stands for in `clientFunction`. -/
def clientCommand (userInput : Char) (fileName : String) (number : Int) : Command :=
  if userInput = 'p' then Command.print
  else if userInput = 's' then Command.save fileName
  else if userInput = 'l' then Command.load fileName
  else if userInput = 'n' then Command.new number
  else if userInput = 'm' then Command.move number
  else Command.noAction

/-- The widths of the payload that follows the tag of a command. -/
def payloadWidths : Command → List Nat
  | Command.print => []
  | Command.save _ => [99]
  | Command.load _ => [99]
  | Command.new _ => [4]
  | Command.move _ => [4]
  | Command.noAction => []

/-- The session holding the `n` by `n` board whose cells in row-major order
are the list `l`. -/
def sessionOfCells (n : Int) (l : List Int) : Session where
  board := fun i j => l.getD (i * n + j).toNat 0
  boardSize := n
  rows := n
  cols := n
  maxTileValue := n * n - 1
  randomPool := fun _ => 0
  gamesPlayed := 1
  isLoadingGame := 0
  location := (0, 0)

/-- The list `d` with Empty put in at position `k`. -/
def withEmptyAt (d : List Int) (k : Nat) : List Int := d.take k ++ (-1) :: d.drop k

theorem mem_intRangeFrom (lo hi x : Int) : x ∈ intRangeFrom lo hi ↔ lo ≤ x ∧ x < hi := by
  unfold intRangeFrom
  simp only [List.mem_map, List.mem_range]
  constructor
  · rintro ⟨k, hk, rfl⟩
    omega
  · rintro ⟨h1, h2⟩
    refine ⟨(x - lo).toNat, ?_, ?_⟩ <;> omega

theorem nodup_intRangeFrom (lo hi : Int) : (intRangeFrom lo hi).Nodup := by
  unfold intRangeFrom
  refine List.Nodup.map ?_ (List.nodup_range _)
  intro a b h
  simp only at h
  omega

theorem length_intRangeFrom (lo hi : Int) : (intRangeFrom lo hi).length = (hi - lo).toNat := by
  simp [intRangeFrom]

theorem mem_intRange (n x : Int) : x ∈ intRange n ↔ 0 ≤ x ∧ x < n := mem_intRangeFrom 0 n x

theorem mem_cellIndices (n : Int) (p : Int × Int) :
    p ∈ cellIndices n ↔ (0 ≤ p.1 ∧ p.1 < n) ∧ (0 ≤ p.2 ∧ p.2 < n) := by
  obtain ⟨i, j⟩ := p
  simp only [cellIndices, List.mem_flatMap, List.mem_map, mem_intRange, Prod.mk.injEq]
  constructor
  · rintro ⟨a, ha, b, hb, rfl, rfl⟩
    exact ⟨ha, hb⟩
  · rintro ⟨ha, hb⟩
    exact ⟨i, ha, j, hb, rfl, rfl⟩

theorem nodup_cellIndices (n : Int) : (cellIndices n).Nodup := by
  unfold cellIndices
  rw [List.nodup_flatMap]
  refine ⟨?_, ?_⟩
  · intro i _
    refine List.Nodup.map ?_ (nodup_intRangeFrom 0 n)
    intro a b h
    simpa using h
  · refine List.Pairwise.imp ?_ (nodup_intRangeFrom 0 n)
    intro a b hab
    simp only [Function.onFun, List.Disjoint, List.mem_map]
    rintro p ⟨x, _, rfl⟩ ⟨y, _, h⟩
    simp only [Prod.mk.injEq] at h
    exact hab h.1.symm

theorem length_flatMap_const {α β : Type} (l : List α) (f : α → List β) (c : Nat)
    (h : ∀ a ∈ l, (f a).length = c) : (l.flatMap f).length = l.length * c := by
  induction l with
  | nil => simp
  | cons a l ih =>
    rw [List.flatMap_cons, List.length_append, h a (List.mem_cons_self _ _),
      ih (fun x hx => h x (List.mem_cons_of_mem _ hx)), List.length_cons]
    ring

theorem length_cellIndices (n : Int) : (cellIndices n).length = n.toNat * n.toNat := by
  unfold cellIndices
  rw [length_flatMap_const _ _ n.toNat]
  · simp [intRange, length_intRangeFrom]
  · intro a _
    simp [intRange, length_intRangeFrom]


/-! ## Board generation -/


theorem foldl_writeAt (l : List Int) (p0 : Int → Int) (k : Int) :
    (l.foldl (fun pool i => writeAt pool i i) p0) k = if k ∈ l then k else p0 k := by
  induction l generalizing p0 with
  | nil => simp
  | cons i l ih =>
    rw [List.foldl_cons, ih]
    by_cases h1 : k ∈ l
    · simp [h1]
    · by_cases h2 : k = i
      · simp [h1, h2, writeAt]
      · simp [h1, h2, writeAt]

theorem fillRandomPool_slot (s : Session) (k : Int) (h0 : 0 ≤ k) (h1 : k ≤ s.maxTileValue) :
    (fillRandomPool s).randomPool k = poolValue k := by
  simp only [fillRandomPool, foldl_writeAt, mem_intRangeFrom, poolValue, writeAt]
  by_cases hk : k = 0
  · subst hk; simp
  · have : 1 ≤ k ∧ k < s.maxTileValue + 1 := by omega
    simp [this, hk]

theorem poolInv_fill (s : Session) : PoolInv (s.maxTileValue + 1) (fillRandomPool s).randomPool := by
  intro k h0 h1
  exact Or.inr (fillRandomPool_slot s k h0 (by omega))

theorem poolValue_ne_zero (k : Int) : poolValue k ≠ 0 := by
  unfold poolValue; split <;> omega

theorem poolValue_inj (a b : Int) (ha : 0 ≤ a) (hb : 0 ≤ b) (h : poolValue a = poolValue b) :
    a = b := by
  unfold poolValue at h; split at h <;> split at h <;> omega

theorem poolInv_writeAt (m : Int) (pool : Int → Int) (k : Int) (h : PoolInv m pool) :
    PoolInv m (writeAt pool k 0) := by
  intro j h0 h1
  unfold writeAt
  by_cases hj : j = k
  · simp [hj]
  · simpa [hj] using h j h0 h1

/-- What one run of the candidate loop does: it skips draws that land on marked
slots and takes the first draw `r` landing on an unmarked slot `k`. -/
theorem drawCandidate_spec (mx : Int) (hm : 0 < mx + 1) (draws : List Nat) :
    ∀ (pool : Int → Int) (c : Int) (pool1 : Int → Int) (rest : List Nat),
      PoolInv (mx + 1) pool → drawCandidate mx draws pool = some (c, pool1, rest) →
      ∃ (pre : List Nat) (r : Nat), draws = pre ++ r :: rest ∧
        (∀ q ∈ pre, pool ((q : Int) % (mx + 1)) = 0) ∧
        pool ((r : Int) % (mx + 1)) ≠ 0 ∧ c = poolValue ((r : Int) % (mx + 1)) ∧
        pool1 = writeAt pool ((r : Int) % (mx + 1)) 0 := by
  induction draws with
  | nil => intro pool c pool1 rest _ h; simp [drawCandidate] at h
  | cons r ds ih =>
    intro pool c pool1 rest hinv h
    have hr0 : 0 ≤ (r : Int) % (mx + 1) := Int.emod_nonneg _ (by omega)
    have hr1 : (r : Int) % (mx + 1) < mx + 1 := Int.emod_lt_of_pos _ hm
    simp only [drawCandidate, retrieveRandomValue] at h
    by_cases hz : pool ((r : Int) % (mx + 1)) = 0
    · simp only [hz, if_true] at h
      obtain ⟨pre, r2, h1, h2, h3, h4, h5⟩ := ih pool c pool1 rest hinv h
      refine ⟨r :: pre, r2, by simp [h1], ?_, h3, h4, h5⟩
      intro q hq
      rcases List.mem_cons.mp hq with rfl | hq
      · exact hz
      · exact h2 q hq
    · simp only [hz, if_false, Option.some.injEq, Prod.mk.injEq] at h
      obtain ⟨h1, h2, h3⟩ := h
      refine ⟨[], r, by simp [h3], by simp, hz, ?_, h2.symm⟩
      rcases hinv _ hr0 hr1 with h0 | h0
      · exact absurd h0 hz
      · rw [← h1, h0]


theorem writeCell_same (b : Int → Int → Int) (i j v : Int) : writeCell b i j v i j = v := by
  simp [writeCell]

theorem writeCell_other (b : Int → Int → Int) (i j v i2 j2 : Int) (h : (i2, j2) ≠ (i, j)) :
    writeCell b i j v i2 j2 = b i2 j2 := by
  have : ¬ (i2 = i ∧ j2 = j) := by
    rintro ⟨rfl, rfl⟩; exact h rfl
  simp [writeCell, this]

/-- What the generation loops do on a list of distinct cells: every cell
receives the initial value of a slot that was unmarked before and is marked
afterwards, no two cells receive the same value, and no other cell changes. -/
theorem setTilesLoop_spec (mx : Int) (hm : 0 < mx + 1) (cells : List (Int × Int)) :
    ∀ (draws : List Nat) (pool : Int → Int) (b : Int → Int → Int) (pool2 : Int → Int)
      (b2 : Int → Int → Int),
      cells.Nodup → PoolInv (mx + 1) pool →
      setTilesLoop mx cells draws pool b = some (pool2, b2) →
      PoolInv (mx + 1) pool2 ∧ (∀ k, pool k = 0 → pool2 k = 0) ∧
      (∀ i j, (i, j) ∉ cells → b2 i j = b i j) ∧
      (∀ p ∈ cells, ∃ k, 0 ≤ k ∧ k < mx + 1 ∧ pool k ≠ 0 ∧ pool2 k = 0 ∧
        b2 p.1 p.2 = poolValue k) ∧
      (∀ p ∈ cells, ∀ q ∈ cells, b2 p.1 p.2 = b2 q.1 q.2 → p = q) := by
  induction cells with
  | nil =>
    intro draws pool b pool2 b2 _ hinv h
    simp only [setTilesLoop, Option.some.injEq, Prod.mk.injEq] at h
    obtain ⟨rfl, rfl⟩ := h
    exact ⟨hinv, fun _ h => h, fun _ _ _ => rfl, by simp, by simp⟩
  | cons p cs ih =>
    intro draws pool b pool2 b2 hnd hinv h
    simp only [setTilesLoop] at h
    cases hd : drawCandidate mx draws pool with
    | none => simp [hd] at h
    | some res =>
      obtain ⟨c, pool1, rest⟩ := res
      simp only [hd] at h
      obtain ⟨pre, r, _, _, hnz, hc, hp1⟩ := drawCandidate_spec mx hm draws pool c pool1 rest hinv hd
      have hr0 : 0 ≤ (r : Int) % (mx + 1) := Int.emod_nonneg _ (by omega)
      have hr1 : (r : Int) % (mx + 1) < mx + 1 := Int.emod_lt_of_pos _ hm
      have hpcs : p ∉ cs := (List.nodup_cons.mp hnd).1
      have hinv1 : PoolInv (mx + 1) pool1 := hp1 ▸ poolInv_writeAt _ _ _ hinv
      obtain ⟨i1, i2, i3, i4, i5⟩ := ih rest pool1 _ pool2 b2 (List.nodup_cons.mp hnd).2 hinv1 h
      have hk1 : pool1 ((r : Int) % (mx + 1)) = 0 := by rw [hp1]; simp [writeAt]
      have hzero : ∀ k, pool k = 0 → pool1 k = 0 := by
        intro k hk; rw [hp1]; unfold writeAt; split <;> simp [hk]
      have hbp : b2 p.1 p.2 = poolValue ((r : Int) % (mx + 1)) := by
        rw [i3 p.1 p.2 hpcs, writeCell_same, hc]
      have hcs : ∀ q ∈ cs, ∃ k, 0 ≤ k ∧ k < mx + 1 ∧ k ≠ (r : Int) % (mx + 1) ∧ pool k ≠ 0 ∧
          pool2 k = 0 ∧ b2 q.1 q.2 = poolValue k := by
        intro q hq
        obtain ⟨k, a1, a2, a3, a4, a5⟩ := i4 q hq
        have hne : k ≠ (r : Int) % (mx + 1) := by
          intro he; rw [he] at a3; exact a3 hk1
        refine ⟨k, a1, a2, hne, ?_, a4, a5⟩
        intro hz; exact a3 (hzero k hz)
      have hpq : ∀ q ∈ cs, b2 p.1 p.2 ≠ b2 q.1 q.2 := by
        intro q hq he
        obtain ⟨k, a1, _, a3, _, _, a6⟩ := hcs q hq
        rw [hbp, a6] at he
        exact a3 (poolValue_inj _ _ hr0 a1 he).symm
      refine ⟨i1, fun k hk => i2 k (hzero k hk), ?_, ?_, ?_⟩
      · intro i j hij
        have h1 : (i, j) ∉ cs := fun hc => hij (List.mem_cons_of_mem _ hc)
        have h2 : (i, j) ≠ (p.1, p.2) := fun hc => hij (by rw [hc]; exact List.mem_cons_self _ _)
        rw [i3 i j h1, writeCell_other _ _ _ _ _ _ h2]
      · intro q hq
        rcases List.mem_cons.mp hq with rfl | hq
        · exact ⟨_, hr0, hr1, hnz, i2 _ hk1, hbp⟩
        · obtain ⟨k, a1, a2, _, a4, a5, a6⟩ := hcs q hq
          exact ⟨k, a1, a2, a4, a5, a6⟩
      · intro q1 hq1 q2 hq2 he
        rcases List.mem_cons.mp hq1 with e1 | m1
        · rcases List.mem_cons.mp hq2 with e2 | m2
          · rw [e1, e2]
          · rw [e1] at he; exact absurd he (hpq q2 m2)
        · rcases List.mem_cons.mp hq2 with e2 | m2
          · rw [e2] at he; exact absurd he.symm (hpq q1 m1)
          · exact i5 q1 m1 q2 m2 he

theorem count_eq_one_of_nodup_subset (l t : List Int) (hl : l.Nodup) (hsub : l ⊆ t)
    (hlen : t.length ≤ l.length) : ∀ v ∈ t, l.count v = 1 := by
  intro v hv
  have hperm : l.Perm t := (hl.subperm hsub).perm_of_length_le hlen
  exact List.count_eq_one_of_mem hl (hperm.mem_iff.mpr hv)

theorem nodup_tileValues (n : Int) : (tileValues n).Nodup := by
  unfold tileValues
  refine List.nodup_cons.mpr ⟨?_, nodup_intRangeFrom _ _⟩
  rw [mem_intRangeFrom]
  unfold emptyTileValue
  omega

theorem mem_tileValues (n v : Int) : v ∈ tileValues n ↔ v = -1 ∨ (1 ≤ v ∧ v ≤ n * n - 1) := by
  unfold tileValues emptyTileValue
  rw [List.mem_cons, mem_intRangeFrom]
  constructor
  · rintro (h | h)
    · exact Or.inl h
    · exact Or.inr ⟨h.1, by omega⟩
  · rintro (h | h)
    · exact Or.inl h
    · exact Or.inr ⟨h.1, by omega⟩

theorem length_tileValues (n : Int) (h : 1 ≤ n) : (tileValues n).length = n.toNat * n.toNat := by
  unfold tileValues
  rw [List.length_cons, length_intRangeFrom]
  have h1 : (1 : Int) ≤ n * n := by nlinarith
  have h2 : ((n.toNat * n.toNat : Nat) : Int) = n * n := by
    push_cast
    rw [Int.toNat_of_nonneg (by omega)]
  omega

/-- The permutation invariant in the words of the specification: Empty occurs
exactly once and so does every integer from 1 to `n*n-1`. -/
theorem validBoard_iff (n : Int) (s : Session) :
    ValidBoard n s ↔ s.boardSize = n ∧ s.rows = n ∧ s.cols = n ∧ s.maxTileValue = n * n - 1 ∧
      (boardCells s).count (-1) = 1 ∧
      ∀ v : Int, 1 ≤ v → v ≤ n * n - 1 → (boardCells s).count v = 1 := by
  unfold ValidBoard
  constructor
  · rintro ⟨h1, h2, h3, h4, h5⟩
    refine ⟨h1, h2, h3, h4, h5 _ ((mem_tileValues n _).mpr (Or.inl rfl)), ?_⟩
    intro v hv1 hv2
    exact h5 v ((mem_tileValues n v).mpr (Or.inr ⟨hv1, hv2⟩))
  · rintro ⟨h1, h2, h3, h4, h5, h6⟩
    refine ⟨h1, h2, h3, h4, ?_⟩
    intro v hv
    rcases (mem_tileValues n v).mp hv with rfl | ⟨hv1, hv2⟩
    · exact h5
    · exact h6 v hv1 hv2

/-- A finished generation leaves a valid board. -/
theorem setAllTiles_valid (n : Int) (hn : 1 ≤ n) (draws : List Nat) (s s2 : Session)
    (hsize : s.boardSize = n) (hrows : s.rows = n) (hcols : s.cols = n)
    (hmax : s.maxTileValue = n * n - 1) (h : setAllTiles draws s = some s2) :
    ValidBoard n s2 ∧ s2.gamesPlayed = s.gamesPlayed ∧ s2.isLoadingGame = s.isLoadingGame ∧
      s2.location = s.location := by
  unfold setAllTiles at h
  cases hl : setTilesLoop s.maxTileValue (cellIndices s.boardSize) draws
      (fillRandomPool s).randomPool s.board with
  | none => simp [hl] at h
  | some res =>
    obtain ⟨pool2, b2⟩ := res
    simp only [hl, Option.some.injEq] at h
    subst h
    have hm : 0 < s.maxTileValue + 1 := by rw [hmax]; nlinarith
    obtain ⟨_, _, _, i4, i5⟩ := setTilesLoop_spec s.maxTileValue hm _ draws _ _ pool2 b2
      (nodup_cellIndices _) (poolInv_fill s) hl
    refine ⟨⟨hsize, hrows, hcols, hmax, ?_⟩, rfl, rfl, rfl⟩
    apply count_eq_one_of_nodup_subset
    · unfold boardCells
      exact List.Nodup.map_on (fun p hp q hq he => i5 p hp q hq he) (nodup_cellIndices _)
    · intro v hv
      unfold boardCells at hv
      obtain ⟨p, hp, rfl⟩ := List.mem_map.mp hv
      obtain ⟨k, k0, k1, _, _, hk⟩ := i4 p hp
      show b2 p.1 p.2 ∈ tileValues n
      rw [hk, mem_tileValues]
      unfold poolValue
      split
      · exact Or.inl rfl
      · right; rw [hmax] at k1; omega
    · unfold boardCells
      rw [List.length_map, length_cellIndices, length_tileValues n hn]
      show n.toNat * n.toNat ≤ s.boardSize.toNat * s.boardSize.toNat
      rw [hsize]


theorem drawCandidate_isSome (mx : Int) (draws : List Nat) :
    ∀ (pool : Int → Int), (∃ r ∈ draws, pool ((r : Int) % (mx + 1)) ≠ 0) →
      ∃ c pool1 rest, drawCandidate mx draws pool = some (c, pool1, rest) := by
  induction draws with
  | nil => intro pool h; obtain ⟨r, hr, _⟩ := h; simp at hr
  | cons d ds ih =>
    intro pool h
    simp only [drawCandidate, retrieveRandomValue]
    by_cases hz : pool ((d : Int) % (mx + 1)) = 0
    · simp only [hz, if_true]
      apply ih
      obtain ⟨r, hr, hnz⟩ := h
      rcases List.mem_cons.mp hr with rfl | hr
      · exact absurd hz hnz
      · exact ⟨r, hr, hnz⟩
    · simp [hz]

/-- The generation loops finish when the draws still reach enough unmarked
slots: a list `avail` of distinct unmarked slots, each the target of some
draw, at least as long as the list of cells to fill. -/
theorem setTilesLoop_isSome (mx : Int) (hm : 0 < mx + 1) (cells : List (Int × Int)) :
    ∀ (draws : List Nat) (pool : Int → Int) (b : Int → Int → Int) (avail : List Int),
      avail.Nodup → PoolInv (mx + 1) pool →
      (∀ k ∈ avail, pool k ≠ 0 ∧ ∃ r ∈ draws, (r : Int) % (mx + 1) = k) →
      cells.length ≤ avail.length →
      (setTilesLoop mx cells draws pool b).isSome := by
  induction cells with
  | nil => intro draws pool b avail _ _ _ _; simp [setTilesLoop]
  | cons p cs ih =>
    intro draws pool b avail hnd hinv hav hlen
    cases avail with
    | nil => simp at hlen
    | cons k0 av =>
      obtain ⟨hk0, r0, hr0, hr0k⟩ := hav k0 (List.mem_cons_self _ _)
      obtain ⟨c, pool1, rest, hd⟩ :=
        drawCandidate_isSome mx draws pool ⟨r0, hr0, by rw [hr0k]; exact hk0⟩
      obtain ⟨pre, r, hdr, hpre, _, _, hp1⟩ :=
        drawCandidate_spec mx hm draws pool c pool1 rest hinv hd
      simp only [setTilesLoop, hd]
      apply ih rest pool1 _ ((k0 :: av).erase ((r : Int) % (mx + 1))) (hnd.erase _)
        (hp1 ▸ poolInv_writeAt _ _ _ hinv)
      · intro k hk
        obtain ⟨hne, hmem⟩ := (hnd.mem_erase_iff).mp hk
        obtain ⟨hkz, q, hq, hqk⟩ := hav k hmem
        refine ⟨?_, q, ?_, hqk⟩
        · rw [hp1]; unfold writeAt; simp [hne, hkz]
        · rw [hdr] at hq
          rcases List.mem_append.mp hq with hq | hq
          · have := hpre q hq
            rw [hqk] at this
            exact absurd this hkz
          · rcases List.mem_cons.mp hq with rfl | hq
            · exact absurd hqk.symm hne
            · exact hq
      · have h2 : (k0 :: av).length - 1 ≤ ((k0 :: av).erase ((r : Int) % (mx + 1))).length := by
          rw [List.length_erase]
          split <;> omega
        simp only [List.length_cons] at hlen h2 ⊢
        omega


theorem setAllTiles_isSome (n : Int) (hn : 1 ≤ n) (draws : List Nat) (s : Session)
    (hsize : s.boardSize = n) (hmax : s.maxTileValue = n * n - 1)
    (hcov : Covers (n * n) draws) : (setAllTiles draws s).isSome := by
  have hm : 0 < s.maxTileValue + 1 := by rw [hmax]; nlinarith
  have hmm : s.maxTileValue + 1 = n * n := by rw [hmax]; ring
  have hloop : (setTilesLoop s.maxTileValue (cellIndices s.boardSize) draws
      (fillRandomPool s).randomPool s.board).isSome := by
    apply setTilesLoop_isSome s.maxTileValue hm _ draws _ _ (intRange (n * n))
      (nodup_intRangeFrom _ _) (poolInv_fill s)
    · intro k hk
      have hk2 := (mem_intRange _ _).mp hk
      refine ⟨?_, ?_⟩
      · rw [fillRandomPool_slot s k hk2.1 (by omega)]
        exact poolValue_ne_zero k
      · rw [hmm]; exact hcov k hk
    · rw [length_cellIndices, hsize]
      unfold intRange
      rw [length_intRangeFrom]
      have h2 : ((n.toNat * n.toNat : Nat) : Int) = n * n := by
        push_cast
        rw [Int.toNat_of_nonneg (by omega)]
      have h1 : (1 : Int) ≤ n * n := by nlinarith
      omega
  unfold setAllTiles
  cases hl : setTilesLoop s.maxTileValue (cellIndices s.boardSize) draws
      (fillRandomPool s).randomPool s.board with
  | none => rw [hl] at hloop; simp at hloop
  | some res => simp

theorem initializeGame_reject (size : Int) (fresh : Int → Int → Int) (draws : List Nat)
    (s : Session) (h : size < 3 ∨ size > 9) : initializeGame size fresh draws s = some (0, s) := by
  unfold initializeGame
  have : size > 9 ∨ size < 3 := h.symm
  simp [this]

/-- Everything a call of `initialize` with an accepted size does, when it
returns. -/
theorem initializeGame_accept (n : Int) (h3 : 3 ≤ n) (h9 : n ≤ 9) (fresh : Int → Int → Int)
    (draws : List Nat) (s : Session) (r : Int) (s2 : Session)
    (h : initializeGame n fresh draws s = some (r, s2)) :
    r = 1 ∧ s2.boardSize = n ∧ s2.rows = n ∧ s2.cols = n ∧ s2.maxTileValue = n * n - 1 ∧
      s2.gamesPlayed = wrapInt (s.gamesPlayed + 1) ∧ s2.isLoadingGame = 0 ∧
      s2.location = s.location ∧
      (s.isLoadingGame ≠ 1 → ValidBoard n s2) ∧ (s.isLoadingGame = 1 → s2.board = fresh) := by
  unfold initializeGame at h
  have hr : ¬ (n > 9 ∨ n < 3) := by omega
  simp only [hr, if_false] at h
  by_cases hflag : s.isLoadingGame = 1
  · simp only [allocateMemory, setBoardSizeAndValues, tearDown, hflag, ne_eq,
      not_true_eq_false, if_false, Option.some.injEq, Prod.mk.injEq] at h
    obtain ⟨rfl, rfl⟩ := h
    exact ⟨rfl, rfl, rfl, rfl, rfl, rfl, rfl, rfl, fun hc => absurd hflag hc, fun _ => rfl⟩
  · have hflag2 : (allocateMemory fresh (setBoardSizeAndValues n (tearDown s))).isLoadingGame ≠ 1 :=
      hflag
    simp only [hflag2, ne_eq, not_false_eq_true, if_true] at h
    cases hs : setAllTiles draws (allocateMemory fresh (setBoardSizeAndValues n (tearDown s))) with
    | none => simp [hs] at h
    | some s1 =>
      simp only [hs, Option.some.injEq, Prod.mk.injEq] at h
      obtain ⟨rfl, rfl⟩ := h
      obtain ⟨hv, hg, _, hloc⟩ := setAllTiles_valid n (by omega) draws _ s1 rfl rfl rfl rfl hs
      obtain ⟨v1, v2, v3, v4, v5⟩ := hv
      refine ⟨rfl, v1, v2, v3, v4, ?_, rfl, hloc, fun _ => ⟨v1, v2, v3, v4, v5⟩,
        fun hc => absurd hc hflag⟩
      show wrapInt (s1.gamesPlayed + 1) = wrapInt (s.gamesPlayed + 1)
      rw [hg]; rfl

/-- A call of `initialize` with an accepted size returns when it is loading
(no draw is made) or when the draws reach every slot of the pool. -/
theorem initializeGame_isSome (n : Int) (h3 : 3 ≤ n) (h9 : n ≤ 9) (fresh : Int → Int → Int)
    (draws : List Nat) (s : Session) (h : s.isLoadingGame = 1 ∨ Covers (n * n) draws) :
    ∃ s2, initializeGame n fresh draws s = some (1, s2) := by
  have hsome : (initializeGame n fresh draws s).isSome := by
    unfold initializeGame
    have hr : ¬ (n > 9 ∨ n < 3) := by omega
    simp only [hr, if_false]
    by_cases hflag : s.isLoadingGame = 1
    · simp [allocateMemory, setBoardSizeAndValues, tearDown, hflag]
    · have hcov : Covers (n * n) draws := h.resolve_left hflag
      have hflag2 :
          (allocateMemory fresh (setBoardSizeAndValues n (tearDown s))).isLoadingGame ≠ 1 := hflag
      simp only [hflag2, ne_eq, not_false_eq_true, if_true]
      have := setAllTiles_isSome n (by omega) draws
        (allocateMemory fresh (setBoardSizeAndValues n (tearDown s))) rfl rfl hcov
      cases hs : setAllTiles draws (allocateMemory fresh (setBoardSizeAndValues n (tearDown s))) with
      | none => rw [hs] at this; simp at this
      | some s1 => simp
  cases hi : initializeGame n fresh draws s with
  | none => rw [hi] at hsome; simp at hsome
  | some res =>
    obtain ⟨r, s2⟩ := res
    obtain ⟨rfl, _⟩ := initializeGame_accept n h3 h9 fresh draws s r s2 hi
    exact ⟨s2, rfl⟩


/-- C1: for every `N` with `3 ≤ N ≤ 9`, every session whose load flag is
clear and every sequence of draws on which the generation finishes,
`initialize(N)` returns 1 and leaves an `N` by `N` board in which Empty (-1)
occurs exactly once and each integer of `[1, N*N-1]` occurs exactly once. -/
theorem initialize_generates_permutation (N : Int) (fresh : Int → Int → Int)
    (draws : List Nat) (s : Session) (h3 : 3 ≤ N) (h9 : N ≤ 9) (hflag : s.isLoadingGame = 0)
    (hfin : (initializeGame N fresh draws s).isSome) :
    ∃ s2, initializeGame N fresh draws s = some (1, s2) ∧
      s2.boardSize = N ∧ s2.rows = N ∧ s2.cols = N ∧
      (boardCells s2).length = (N * N).toNat ∧
      (boardCells s2).count (-1) = 1 ∧
      ∀ v : Int, 1 ≤ v → v ≤ N * N - 1 → (boardCells s2).count v = 1 := by
  cases hi : initializeGame N fresh draws s with
  | none => rw [hi] at hfin; simp at hfin
  | some res =>
    obtain ⟨r, s2⟩ := res
    obtain ⟨rfl, a1, a2, a3, _, _, _, _, hv, _⟩ :=
      initializeGame_accept N h3 h9 fresh draws s r s2 hi
    have hne : s.isLoadingGame ≠ 1 := by rw [hflag]; decide
    obtain ⟨_, _, _, _, c1, c2⟩ := (validBoard_iff N s2).mp (hv hne)
    refine ⟨s2, rfl, a1, a2, a3, ?_, c1, c2⟩
    unfold boardCells
    rw [List.length_map, length_cellIndices, a1]
    have h2 : ((N.toNat * N.toNat : Nat) : Int) = N * N := by
      push_cast
      rw [Int.toNat_of_nonneg (by omega)]
    have h1 : (0 : Int) ≤ N * N := by nlinarith
    omega

/-- C1 at `N = 3` from the initial globals, with the draws `0, 1, ..., 8`. -/
theorem initialize_generates_permutation_witness :
    ∃ s2, initializeGame 3 (fun _ _ => 0) [0, 1, 2, 3, 4, 5, 6, 7, 8] startup = some (1, s2) ∧
      s2.boardSize = 3 ∧ s2.rows = 3 ∧ s2.cols = 3 ∧
      (boardCells s2).length = ((3 : Int) * 3).toNat ∧
      (boardCells s2).count (-1) = 1 ∧
      ∀ v : Int, 1 ≤ v → v ≤ 3 * 3 - 1 → (boardCells s2).count v = 1 :=
  initialize_generates_permutation 3 (fun _ _ => 0) [0, 1, 2, 3, 4, 5, 6, 7, 8] startup
    (by decide) (by decide) rfl (by decide)

/-- C7, counterexample: with the counter at `INT_MAX = 2147483647`,
`initialize(3)` returns 1 and leaves `gamesPlayed` at `-2147483648`, not at
`2147483648`. -/
theorem initialize_counter_wraps_counterexample :
    (initializeGame 3 (fun _ _ => 0) [0, 1, 2, 3, 4, 5, 6, 7, 8]
        { startup with gamesPlayed := 2147483647 }).map (fun r => (r.1, r.2.gamesPlayed)) =
      some (1, -2147483648) ∧
    (-2147483648 : Int) ≠ 2147483647 + 1 := by
  decide

/-- C7 as amended: `initialize(size)` with `size < 3` or `size > 9` returns 0
and leaves the whole session (cells, board size, max tile value, games played)
as it was; with `3 ≤ size ≤ 9` every call that returns returns 1 with
`gamesPlayed` incremented as a 32-bit `int`: one higher when the counter is
below `INT_MAX`, and `INT_MIN` when it is `INT_MAX`; and the call does return
when it is loading or when the draws reach every slot of the pool. -/
theorem initialize_size_check (size : Int) (fresh : Int → Int → Int) (draws : List Nat)
    (s : Session) :
    ((size < 3 ∨ size > 9) → initializeGame size fresh draws s = some (0, s)) ∧
    ((3 ≤ size ∧ size ≤ 9) →
      (∀ r s2, initializeGame size fresh draws s = some (r, s2) →
        r = 1 ∧ s2.gamesPlayed = wrapInt (s.gamesPlayed + 1) ∧
        (-2147483648 ≤ s.gamesPlayed → s.gamesPlayed < 2147483647 →
          s2.gamesPlayed = s.gamesPlayed + 1) ∧
        (s.gamesPlayed = 2147483647 → s2.gamesPlayed = -2147483648)) ∧
      ((s.isLoadingGame = 1 ∨ Covers (size * size) draws) →
        ∃ s2, initializeGame size fresh draws s = some (1, s2))) := by
  refine ⟨initializeGame_reject size fresh draws s, ?_⟩
  rintro ⟨h3, h9⟩
  refine ⟨?_, ?_⟩
  · intro r s2 h
    obtain ⟨hr, _, _, _, _, hg, _⟩ := initializeGame_accept size h3 h9 fresh draws s r s2 h
    refine ⟨hr, hg, ?_, ?_⟩
    · intro hlo hhi
      rw [hg]
      unfold wrapInt
      omega
    · intro hmax
      rw [hg, hmax]
      decide
  · intro hc
    exact initializeGame_isSome size h3 h9 fresh draws s hc

/-- C7 at the sizes 2, 10 and 3 from the initial globals. -/
theorem initialize_size_check_witness :
    initializeGame 2 (fun _ _ => 0) [] startup = some (0, startup) ∧
    initializeGame 10 (fun _ _ => 0) [] startup = some (0, startup) ∧
    ∃ s2, initializeGame 3 (fun _ _ => 0) [0, 1, 2, 3, 4, 5, 6, 7, 8] startup = some (1, s2) ∧
      s2.gamesPlayed = startup.gamesPlayed + 1 := by
  refine ⟨(initialize_size_check 2 (fun _ _ => 0) [] startup).1 (by decide),
    (initialize_size_check 10 (fun _ _ => 0) [] startup).1 (by decide), ?_⟩
  obtain ⟨hall, hret⟩ :=
    (initialize_size_check 3 (fun _ _ => 0) [0, 1, 2, 3, 4, 5, 6, 7, 8] startup).2 (by decide)
  obtain ⟨s2, h2⟩ := hret (Or.inr (by decide))
  exact ⟨s2, h2, (hall 1 s2 h2).2.2.1 (by decide) (by decide)⟩


/-! ## Moves -/


theorem unique_of_count_eq_one {α : Type} (l : List α) (f : α → Int) (v : Int)
    (h : (l.map f).count v = 1) (p q : α) (hp : p ∈ l) (hq : q ∈ l) (fp : f p = v)
    (fq : f q = v) : p = q := by
  induction l with
  | nil => simp at hp
  | cons a l ih =>
    rw [List.map_cons, List.count_cons] at h
    by_cases ha : f a = v
    · have h0 : (l.map f).count v = 0 := by simpa [ha] using h
      have hnot : ∀ x ∈ l, f x ≠ v := by
        intro x hx hfx
        have : v ∈ l.map f := List.mem_map.mpr ⟨x, hx, hfx⟩
        exact (List.count_eq_zero.mp h0) this
      rcases List.mem_cons.mp hp with rfl | hp
      · rcases List.mem_cons.mp hq with rfl | hq
        · rfl
        · exact absurd fq (hnot q hq)
      · exact absurd fp (hnot p hp)
    · have h1 : (l.map f).count v = 1 := by simpa [ha] using h
      rcases List.mem_cons.mp hp with rfl | hp
      · exact absurd fp ha
      · rcases List.mem_cons.mp hq with rfl | hq
        · exact absurd fq ha
        · exact ih h1 hp hq

theorem exists_of_count_eq_one {α : Type} (l : List α) (f : α → Int) (v : Int)
    (h : (l.map f).count v = 1) : ∃ p ∈ l, f p = v := by
  have : v ∈ l.map f := List.count_pos_iff.mp (by omega)
  obtain ⟨p, hp, hfp⟩ := List.mem_map.mp this
  exact ⟨p, hp, hfp⟩

/-- On a valid board every tile value has exactly one position. -/
theorem validBoard_position (n : Int) (s : Session) (hv : ValidBoard n s) (v : Int)
    (hmem : v ∈ tileValues n) :
    ∃ p ∈ cellIndices n, s.board p.1 p.2 = v ∧
      ∀ q ∈ cellIndices n, s.board q.1 q.2 = v → q = p := by
  obtain ⟨h1, _, _, _, h5⟩ := hv
  have hc := h5 v hmem
  unfold boardCells at hc
  rw [h1] at hc
  obtain ⟨p, hp, hfp⟩ := exists_of_count_eq_one _ _ v hc
  exact ⟨p, hp, hfp, fun q hq hfq => unique_of_count_eq_one _ _ v hc q p hq hp hfq hfp⟩

theorem searchBoard_found (s : Session) (v : Int) (p : Int × Int)
    (hp : p ∈ cellIndices s.boardSize) (hfp : s.board p.1 p.2 = v)
    (huniq : ∀ q ∈ cellIndices s.boardSize, s.board q.1 q.2 = v → q = p) :
    searchBoard v s = { s with location := p } := by
  unfold searchBoard
  cases hf : (cellIndices s.boardSize).find? (fun p => s.board p.1 p.2 = v) with
  | none =>
    have := List.find?_eq_none.mp hf p hp
    simp [hfp] at this
  | some q =>
    have hq := List.mem_of_find?_eq_some hf
    have hfq := List.find?_some hf
    simp only [decide_eq_true_eq] at hfq
    rw [huniq q hq hfq]

theorem searchBoard_fields (s : Session) (v : Int) :
    (searchBoard v s).board = s.board ∧ (searchBoard v s).boardSize = s.boardSize ∧
    (searchBoard v s).rows = s.rows ∧ (searchBoard v s).cols = s.cols ∧
    (searchBoard v s).maxTileValue = s.maxTileValue ∧
    (searchBoard v s).randomPool = s.randomPool ∧
    (searchBoard v s).gamesPlayed = s.gamesPlayed ∧
    (searchBoard v s).isLoadingGame = s.isLoadingGame := by
  unfold searchBoard
  split <;> simp


/-- `isMoveValid` on a valid board, for a tile in range at `pt` with Empty at
`pe`: the answer is the adjacency test and `location` ends at `pe`. -/
theorem isMoveValid_eval (n : Int) (s : Session) (t : Int) (hv : ValidBoard n s)
    (h1 : 1 ≤ t) (h2 : t ≤ n * n - 1) (pt pe : Int × Int)
    (hpt : pt ∈ cellIndices n) (hbt : s.board pt.1 pt.2 = t)
    (hpe : pe ∈ cellIndices n) (hbe : s.board pe.1 pe.2 = -1) :
    isMoveValid t s = (if adjacentCells pt pe then 1 else 0, { s with location := pe }) := by
  obtain ⟨qt, _, _, hut⟩ := validBoard_position n s hv t ((mem_tileValues n t).mpr (Or.inr ⟨h1, h2⟩))
  obtain ⟨qe, _, _, hue⟩ := validBoard_position n s hv (-1) ((mem_tileValues n _).mpr (Or.inl rfl))
  have et : qt = pt := (hut pt hpt hbt).symm
  have ee : qe = pe := (hue pe hpe hbe).symm
  subst et ee
  obtain ⟨hsz, _, _, hmax, _⟩ := hv
  have hs1 : searchBoard t s = { s with location := qt } :=
    searchBoard_found s t qt (hsz ▸ hpt) hbt (fun q hq => hut q (hsz ▸ hq))
  have hs2 : searchBoard emptyTileValue { s with location := qt } = { s with location := qe } :=
    searchBoard_found { s with location := qt } (-1) qe (hsz ▸ hpe) hbe
      (fun q hq => hue q (hsz ▸ hq))
  have hr : ¬ (t < 1 ∨ t > s.maxTileValue) := by rw [hmax]; omega
  unfold isMoveValid
  simp only [hr, if_false, hs1, hs2, adjacentCells]
  by_cases c1 : (qt.1 = qe.1 + 1 ∨ qt.1 = qe.1 - 1) ∧ qe.2 = qt.2
  · simp [c1]
  · by_cases c2 : (qt.2 = qe.2 + 1 ∨ qt.2 = qe.2 - 1) ∧ qe.1 = qt.1
    · simp [c1, c2]
    · simp [c1, c2]

theorem isMoveValid_fields (s : Session) (t : Int) :
    ((isMoveValid t s).1 = 0 ∨ (isMoveValid t s).1 = 1) ∧
    (isMoveValid t s).2.board = s.board ∧ (isMoveValid t s).2.boardSize = s.boardSize ∧
    (isMoveValid t s).2.rows = s.rows ∧ (isMoveValid t s).2.cols = s.cols ∧
    (isMoveValid t s).2.maxTileValue = s.maxTileValue ∧
    (isMoveValid t s).2.randomPool = s.randomPool ∧
    (isMoveValid t s).2.gamesPlayed = s.gamesPlayed ∧
    (isMoveValid t s).2.isLoadingGame = s.isLoadingGame := by
  have a := searchBoard_fields s t
  have b := searchBoard_fields (searchBoard t s) emptyTileValue
  unfold isMoveValid
  split
  · simp
  · simp only
    split
    · simp [a, b]
    · split
      · simp [a, b]
      · simp [a, b]

/-- C2: on a board of size `N` that satisfies the permutation invariant,
`isMoveValid(t)` returns 1 exactly when `1 ≤ t ≤ N*N-1` and the position of
`t` and the position of Empty differ by exactly 1 in one of row or column and
are equal in the other. -/
theorem isMoveValid_iff_adjacent (N : Int) (s : Session) (t : Int) (hv : ValidBoard N s) :
    (isMoveValid t s).1 = 1 ↔
      1 ≤ t ∧ t ≤ N * N - 1 ∧
      ∃ ti tj ei ej : Int, (0 ≤ ti ∧ ti < N) ∧ (0 ≤ tj ∧ tj < N) ∧
        (0 ≤ ei ∧ ei < N) ∧ (0 ≤ ej ∧ ej < N) ∧
        s.board ti tj = t ∧ s.board ei ej = -1 ∧
        (((ti - ei = 1 ∨ ei - ti = 1) ∧ tj = ej) ∨ ((tj - ej = 1 ∨ ej - tj = 1) ∧ ti = ei)) := by
  by_cases hr : 1 ≤ t ∧ t ≤ N * N - 1
  · obtain ⟨h1, h2⟩ := hr
    obtain ⟨pt, hpt, hbt, hut⟩ :=
      validBoard_position N s hv t ((mem_tileValues N t).mpr (Or.inr ⟨h1, h2⟩))
    obtain ⟨pe, hpe, hbe, hue⟩ :=
      validBoard_position N s hv (-1) ((mem_tileValues N _).mpr (Or.inl rfl))
    rw [isMoveValid_eval N s t hv h1 h2 pt pe hpt hbt hpe hbe]
    have mt := (mem_cellIndices N pt).mp hpt
    have me := (mem_cellIndices N pe).mp hpe
    constructor
    · intro h
      have hadj : adjacentCells pt pe := by
        by_contra hc
        simp [hc] at h
      refine ⟨h1, h2, pt.1, pt.2, pe.1, pe.2, mt.1, mt.2, me.1, me.2, hbt, hbe, ?_⟩
      unfold adjacentCells at hadj
      omega
    · rintro ⟨_, _, ti, tj, ei, ej, r1, r2, r3, r4, b1, b2, hadj⟩
      have e1 : (ti, tj) = pt := hut (ti, tj) ((mem_cellIndices N _).mpr ⟨r1, r2⟩) b1
      have e2 : (ei, ej) = pe := hue (ei, ej) ((mem_cellIndices N _).mpr ⟨r3, r4⟩) b2
      subst e1 e2
      have : adjacentCells (ti, tj) (ei, ej) := by
        unfold adjacentCells
        simp only
        omega
      simp [this]
  · have hr2 : t < 1 ∨ t > s.maxTileValue := by
      rw [hv.2.2.2.1]; omega
    have : (isMoveValid t s).1 = 0 := by
      unfold isMoveValid; simp [hr2]
    rw [this]
    constructor
    · intro h; exact absurd h (by decide)
    · rintro ⟨h1, h2, _⟩; exact absurd ⟨h1, h2⟩ hr

/-- C2 on the board 8 7 6 / 5 _ 4 / 3 2 1 with the tile 5, left of Empty. -/
theorem isMoveValid_iff_adjacent_witness :
    (isMoveValid 5 (sessionOfRows [[8, 7, 6], [5, -1, 4], [3, 2, 1]])).1 = 1 ↔
      1 ≤ (5 : Int) ∧ (5 : Int) ≤ 3 * 3 - 1 ∧
      ∃ ti tj ei ej : Int, (0 ≤ ti ∧ ti < 3) ∧ (0 ≤ tj ∧ tj < 3) ∧
        (0 ≤ ei ∧ ei < 3) ∧ (0 ≤ ej ∧ ej < 3) ∧
        (sessionOfRows [[8, 7, 6], [5, -1, 4], [3, 2, 1]]).board ti tj = 5 ∧
        (sessionOfRows [[8, 7, 6], [5, -1, 4], [3, 2, 1]]).board ei ej = -1 ∧
        (((ti - ei = 1 ∨ ei - ti = 1) ∧ tj = ej) ∨ ((tj - ej = 1 ∨ ej - tj = 1) ∧ ti = ei)) :=
  isMoveValid_iff_adjacent 3 (sessionOfRows [[8, 7, 6], [5, -1, 4], [3, 2, 1]]) 5 (by decide)

theorem map_swap_perm (l : List (Int × Int)) (hnd : l.Nodup) (p q : Int × Int) (hp : p ∈ l)
    (hq : q ∈ l) : (l.map (Equiv.swap p q)).Perm l := by
  apply ((hnd.map (Equiv.swap p q).injective).subperm ?_).perm_of_length_le (by simp)
  intro x hx
  obtain ⟨y, hy, rfl⟩ := List.mem_map.mp hx
  by_cases h1 : y = p
  · subst h1; rw [Equiv.swap_apply_left]; exact hq
  · by_cases h2 : y = q
    · subst h2; rw [Equiv.swap_apply_right]; exact hp
    · rw [Equiv.swap_apply_of_ne_of_ne h1 h2]; exact hy

/-- Exchanging the contents of two cells of the board does not change how
often a value occurs. -/
theorem count_exchange (n : Int) (b : Int → Int → Int) (pt pe : Int × Int)
    (hpt : pt ∈ cellIndices n) (hpe : pe ∈ cellIndices n) (hne : pt ≠ pe) (v : Int) :
    ((cellIndices n).map fun p =>
        writeCell (writeCell b pe.1 pe.2 (b pt.1 pt.2)) pt.1 pt.2 (b pe.1 pe.2) p.1 p.2).count v =
      ((cellIndices n).map fun p => b p.1 p.2).count v := by
  have hfun : (fun p : Int × Int =>
      writeCell (writeCell b pe.1 pe.2 (b pt.1 pt.2)) pt.1 pt.2 (b pe.1 pe.2) p.1 p.2) =
      (fun p => b p.1 p.2) ∘ (Equiv.swap pt pe) := by
    funext p
    simp only [Function.comp]
    by_cases h1 : p = pt
    · subst h1; rw [Equiv.swap_apply_left]; simp [writeCell]
    · by_cases h2 : p = pe
      · subst h2
        rw [Equiv.swap_apply_right, writeCell_other _ _ _ _ _ _ (by simpa using h1),
          writeCell_same]
      · rw [Equiv.swap_apply_of_ne_of_ne h1 h2,
          writeCell_other _ _ _ _ _ _ (by simpa using h1),
          writeCell_other _ _ _ _ _ _ (by simpa using h2)]
  rw [hfun, ← List.map_map]
  exact ((map_swap_perm _ (nodup_cellIndices n) pt pe hpt hpe).map _).count_eq v

/-- `moveTile` on a valid board, for a legal tile at `pt` with Empty at `pe`. -/
theorem moveTile_eval (n : Int) (s : Session) (t : Int) (hv : ValidBoard n s)
    (h1 : 1 ≤ t) (h2 : t ≤ n * n - 1) (pt pe : Int × Int)
    (hpt : pt ∈ cellIndices n) (hbt : s.board pt.1 pt.2 = t)
    (hpe : pe ∈ cellIndices n) (hbe : s.board pe.1 pe.2 = -1) (hadj : adjacentCells pt pe) :
    moveTile t s =
      (1, { s with board := writeCell (writeCell s.board pe.1 pe.2 t) pt.1 pt.2 (-1),
                   location := pe }) := by
  obtain ⟨qt, _, _, hut⟩ := validBoard_position n s hv t ((mem_tileValues n t).mpr (Or.inr ⟨h1, h2⟩))
  obtain ⟨qe, _, _, hue⟩ := validBoard_position n s hv (-1) ((mem_tileValues n _).mpr (Or.inl rfl))
  have et : qt = pt := (hut pt hpt hbt).symm
  have ee : qe = pe := (hue pe hpe hbe).symm
  subst et ee
  have hsz := hv.1
  have hs1 : searchBoard t { s with location := qe } = { s with location := qt } :=
    searchBoard_found { s with location := qe } t qt (hsz ▸ hpt) hbt (fun q hq => hut q (hsz ▸ hq))
  have hs2 : searchBoard emptyTileValue { s with location := qt } = { s with location := qe } :=
    searchBoard_found { s with location := qt } (-1) qe (hsz ▸ hpe) hbe
      (fun q hq => hue q (hsz ▸ hq))
  unfold moveTile
  rw [isMoveValid_eval n s t hv h1 h2 qt qe hpt hbt hpe hbe]
  simp only [hadj, if_true, ne_eq, one_ne_zero, not_false_eq_true, hs1, hs2, setOneTile]
  rfl

/-- What a positive answer of `isMoveValid` on a valid board tells: the tile is
in range and sits next to Empty. -/
theorem isMoveValid_legal_data (n : Int) (s : Session) (t : Int) (hv : ValidBoard n s)
    (hlegal : (isMoveValid t s).1 = 1) :
    1 ≤ t ∧ t ≤ n * n - 1 ∧ ∃ pt pe : Int × Int, pt ∈ cellIndices n ∧ s.board pt.1 pt.2 = t ∧
      pe ∈ cellIndices n ∧ s.board pe.1 pe.2 = -1 ∧ adjacentCells pt pe := by
  have hr : 1 ≤ t ∧ t ≤ n * n - 1 := by
    by_contra hc
    have hr2 : t < 1 ∨ t > s.maxTileValue := by
      rw [hv.2.2.2.1]; omega
    have : (isMoveValid t s).1 = 0 := by
      unfold isMoveValid; simp [hr2]
    rw [this] at hlegal
    exact absurd hlegal (by decide)
  obtain ⟨h1, h2⟩ := hr
  obtain ⟨pt, hpt, hbt, _⟩ :=
    validBoard_position n s hv t ((mem_tileValues n t).mpr (Or.inr ⟨h1, h2⟩))
  obtain ⟨pe, hpe, hbe, _⟩ :=
    validBoard_position n s hv (-1) ((mem_tileValues n _).mpr (Or.inl rfl))
  rw [isMoveValid_eval n s t hv h1 h2 pt pe hpt hbt hpe hbe] at hlegal
  refine ⟨h1, h2, pt, pe, hpt, hbt, hpe, hbe, ?_⟩
  by_contra hc
  simp [hc] at hlegal

/-- C3: on a board satisfying the permutation invariant, for a tile `t` that
`isMoveValid` accepts, `moveTile(t)` returns 1; the cell that held Empty now
holds `t`, the cell that held `t` now holds Empty, every other cell, the board
size and the max tile value are unchanged, and the permutation invariant
holds again. -/
theorem moveTile_legal_swaps (N : Int) (s : Session) (t : Int) (hv : ValidBoard N s)
    (hlegal : (isMoveValid t s).1 = 1) :
    ∃ ti tj ei ej : Int, (0 ≤ ti ∧ ti < N) ∧ (0 ≤ tj ∧ tj < N) ∧
      (0 ≤ ei ∧ ei < N) ∧ (0 ≤ ej ∧ ej < N) ∧
      s.board ti tj = t ∧ s.board ei ej = -1 ∧
      (moveTile t s).1 = 1 ∧
      (moveTile t s).2.board ei ej = t ∧ (moveTile t s).2.board ti tj = -1 ∧
      (∀ i j : Int, (i, j) ≠ (ti, tj) → (i, j) ≠ (ei, ej) →
        (moveTile t s).2.board i j = s.board i j) ∧
      (moveTile t s).2.boardSize = s.boardSize ∧
      (moveTile t s).2.maxTileValue = s.maxTileValue ∧
      ValidBoard N (moveTile t s).2 := by
  obtain ⟨h1, h2, pt, pe, hpt, hbt, hpe, hbe, hadj⟩ := isMoveValid_legal_data N s t hv hlegal
  have hne : pt ≠ pe := by
    intro he; rw [he, hbe] at hbt; omega
  have hne2 : (pe.1, pe.2) ≠ (pt.1, pt.2) := fun he => hne he.symm
  have mt := (mem_cellIndices N pt).mp hpt
  have me := (mem_cellIndices N pe).mp hpe
  rw [moveTile_eval N s t hv h1 h2 pt pe hpt hbt hpe hbe hadj]
  refine ⟨pt.1, pt.2, pe.1, pe.2, mt.1, mt.2, me.1, me.2, hbt, hbe, rfl, ?_, ?_, ?_, rfl, rfl, ?_⟩
  · show writeCell (writeCell s.board pe.1 pe.2 t) pt.1 pt.2 (-1) pe.1 pe.2 = t
    rw [writeCell_other _ _ _ _ _ _ hne2, writeCell_same]
  · show writeCell (writeCell s.board pe.1 pe.2 t) pt.1 pt.2 (-1) pt.1 pt.2 = -1
    rw [writeCell_same]
  · intro i j hi1 hi2
    show writeCell (writeCell s.board pe.1 pe.2 t) pt.1 pt.2 (-1) i j = s.board i j
    rw [writeCell_other _ _ _ _ _ _ hi1, writeCell_other _ _ _ _ _ _ hi2]
  · obtain ⟨v1, v2, v3, v4, v5⟩ := hv
    refine ⟨v1, v2, v3, v4, ?_⟩
    intro v hvm
    have := count_exchange N s.board pt pe hpt hpe hne v
    rw [hbt, hbe] at this
    unfold boardCells
    show ((cellIndices s.boardSize).map fun p =>
      writeCell (writeCell s.board pe.1 pe.2 t) pt.1 pt.2 (-1) p.1 p.2).count v = 1
    rw [v1, this]
    have h5 := v5 v hvm
    unfold boardCells at h5
    rw [v1] at h5
    exact h5

/-- C3 on the board 8 7 6 / 5 _ 4 / 3 2 1 with the tile 5, left of Empty. -/
theorem moveTile_legal_swaps_witness :
    ∃ ti tj ei ej : Int, (0 ≤ ti ∧ ti < 3) ∧ (0 ≤ tj ∧ tj < 3) ∧
      (0 ≤ ei ∧ ei < 3) ∧ (0 ≤ ej ∧ ej < 3) ∧
      (sessionOfRows [[8, 7, 6], [5, -1, 4], [3, 2, 1]]).board ti tj = 5 ∧
      (sessionOfRows [[8, 7, 6], [5, -1, 4], [3, 2, 1]]).board ei ej = -1 ∧
      (moveTile 5 (sessionOfRows [[8, 7, 6], [5, -1, 4], [3, 2, 1]])).1 = 1 ∧
      (moveTile 5 (sessionOfRows [[8, 7, 6], [5, -1, 4], [3, 2, 1]])).2.board ei ej = 5 ∧
      (moveTile 5 (sessionOfRows [[8, 7, 6], [5, -1, 4], [3, 2, 1]])).2.board ti tj = -1 ∧
      (∀ i j : Int, (i, j) ≠ (ti, tj) → (i, j) ≠ (ei, ej) →
        (moveTile 5 (sessionOfRows [[8, 7, 6], [5, -1, 4], [3, 2, 1]])).2.board i j =
          (sessionOfRows [[8, 7, 6], [5, -1, 4], [3, 2, 1]]).board i j) ∧
      (moveTile 5 (sessionOfRows [[8, 7, 6], [5, -1, 4], [3, 2, 1]])).2.boardSize =
        (sessionOfRows [[8, 7, 6], [5, -1, 4], [3, 2, 1]]).boardSize ∧
      (moveTile 5 (sessionOfRows [[8, 7, 6], [5, -1, 4], [3, 2, 1]])).2.maxTileValue =
        (sessionOfRows [[8, 7, 6], [5, -1, 4], [3, 2, 1]]).maxTileValue ∧
      ValidBoard 3 (moveTile 5 (sessionOfRows [[8, 7, 6], [5, -1, 4], [3, 2, 1]])).2 :=
  moveTile_legal_swaps 3 (sessionOfRows [[8, 7, 6], [5, -1, 4], [3, 2, 1]]) 5
    (by decide) (by decide)

/-- C4: for every board and every integer `t` that `isMoveValid` rejects,
`moveTile(t)` returns 0 and every cell of the board, the board size, the max
tile value and the games-played counter are as before the call. -/
theorem moveTile_illegal_unchanged (s : Session) (t : Int) (h : (isMoveValid t s).1 = 0) :
    (moveTile t s).1 = 0 ∧ (moveTile t s).2.board = s.board ∧
      (moveTile t s).2.boardSize = s.boardSize ∧
      (moveTile t s).2.maxTileValue = s.maxTileValue ∧
      (moveTile t s).2.gamesPlayed = s.gamesPlayed := by
  obtain ⟨_, f1, f2, _, _, f5, _, f7, _⟩ := isMoveValid_fields s t
  have hm : moveTile t s = (0, (isMoveValid t s).2) := by
    unfold moveTile
    cases hi : isMoveValid t s with
    | mk valid s0 =>
      rw [hi] at h
      simp only at h
      simp [h]
  rw [hm]
  exact ⟨rfl, f1, f2, f5, f7⟩

/-- C4 on the board 8 7 6 / 5 _ 4 / 3 2 1 with the tile 8, which is in range
and not next to Empty. -/
theorem moveTile_illegal_unchanged_witness :
    (moveTile 8 (sessionOfRows [[8, 7, 6], [5, -1, 4], [3, 2, 1]])).1 = 0 ∧
      (moveTile 8 (sessionOfRows [[8, 7, 6], [5, -1, 4], [3, 2, 1]])).2.board =
        (sessionOfRows [[8, 7, 6], [5, -1, 4], [3, 2, 1]]).board ∧
      (moveTile 8 (sessionOfRows [[8, 7, 6], [5, -1, 4], [3, 2, 1]])).2.boardSize =
        (sessionOfRows [[8, 7, 6], [5, -1, 4], [3, 2, 1]]).boardSize ∧
      (moveTile 8 (sessionOfRows [[8, 7, 6], [5, -1, 4], [3, 2, 1]])).2.maxTileValue =
        (sessionOfRows [[8, 7, 6], [5, -1, 4], [3, 2, 1]]).maxTileValue ∧
      (moveTile 8 (sessionOfRows [[8, 7, 6], [5, -1, 4], [3, 2, 1]])).2.gamesPlayed =
        (sessionOfRows [[8, 7, 6], [5, -1, 4], [3, 2, 1]]).gamesPlayed :=
  moveTile_illegal_unchanged (sessionOfRows [[8, 7, 6], [5, -1, 4], [3, 2, 1]]) 8 (by decide)

/-! ## Win test -/

theorem countDown_succ (e : Int) (k : Nat) : countDown e (k + 1) = e :: countDown (e - 1) k := by
  unfold countDown
  rw [List.range_succ_eq_map, List.map_cons, List.map_map]
  simp only [Nat.cast_zero, sub_zero, List.cons.injEq, true_and]
  apply List.map_congr_left
  intro i _
  simp only [Function.comp, Nat.succ_eq_add_one, Nat.cast_add, Nat.cast_one]
  ring

theorem mem_countDown (e : Int) (k : Nat) (x : Int) : x ∈ countDown e k ↔ e - k < x ∧ x ≤ e := by
  unfold countDown
  simp only [List.mem_map, List.mem_range]
  constructor
  · rintro ⟨i, hi, rfl⟩; omega
  · rintro ⟨h1, h2⟩
    exact ⟨(e - x).toNat, by omega, by omega⟩

theorem nodup_countDown (e : Int) (k : Nat) : (countDown e k).Nodup := by
  unfold countDown
  refine List.Nodup.map ?_ (List.nodup_range _)
  intro a b h
  simp only at h
  omega

/-- The loop of `isWon` answers 1 exactly when the numbered tiles it meets
count down from the expected value. -/
theorem isWonLoop_iff (cells : List Int) :
    ∀ e : Int, isWonLoop cells e = 1 ↔
      cells.filter (fun c => c ≠ -1) = countDown e (cells.filter fun c => c ≠ -1).length := by
  induction cells with
  | nil => intro e; simp [isWonLoop, countDown]
  | cons x cs ih =>
    intro e
    by_cases hx : x = -1
    · subst hx
      simp only [isWonLoop, or_true, if_true, ne_eq, not_true_eq_false, if_false,
        decide_False, Bool.false_eq_true, not_false_eq_true, List.filter_cons_of_neg]
      exact ih e
    · have hf : (x :: cs).filter (fun c => c ≠ -1) = x :: cs.filter (fun c => c ≠ -1) := by
        simp [hx]
      rw [hf, List.length_cons, countDown_succ]
      by_cases he : x = e
      · subst he
        simp only [isWonLoop, true_or, if_true, ne_eq, hx, not_false_eq_true]
        rw [ih (x - 1)]
        simp
      · simp only [isWonLoop, he, hx, or_self, if_false]
        constructor
        · intro h; exact absurd h (by decide)
        · intro h
          simp only [List.cons.injEq] at h
          exact absurd h.1 he

theorem length_numberedTiles (n : Int) (hn : 1 ≤ n) (s : Session) (hv : ValidBoard n s) :
    (numberedTiles s).length = (n * n - 1).toNat := by
  have hc : (boardCells s).count (-1) = 1 := hv.2.2.2.2 _ ((mem_tileValues n _).mpr (Or.inl rfl))
  have hl : (boardCells s).length = n.toNat * n.toNat := by
    unfold boardCells
    rw [List.length_map, length_cellIndices, hv.1]
  have hsplit := List.length_eq_countP_add_countP (fun c : Int => decide (c ≠ -1)) (boardCells s)
  have hcnt : List.countP (fun c : Int => ¬ (decide (c ≠ -1)) = true) (boardCells s) = 1 := by
    rw [← hc, List.count_eq_countP]
    apply List.countP_congr
    intro x _
    simp
  unfold numberedTiles
  rw [← List.countP_eq_length_filter]
  have h2 : ((n.toNat * n.toNat : Nat) : Int) = n * n := by
    push_cast
    rw [Int.toNat_of_nonneg (by omega)]
  have h1 : (1 : Int) ≤ n * n := by nlinarith
  simp only [Bool.not_eq_true, decide_eq_false_iff_not] at hcnt hsplit
  omega

/-- On a valid board `isWon` answers 1 exactly when the numbered tiles, read
in row-major order, count down from the max tile value. -/
theorem isWon_iff_countDown (n : Int) (hn : 1 ≤ n) (s : Session) (hv : ValidBoard n s) :
    isWon s = 1 ↔ numberedTiles s = countDown (n * n - 1) (n * n - 1).toNat := by
  unfold isWon
  rw [isWonLoop_iff, hv.1]
  have := length_numberedTiles n hn s hv
  unfold numberedTiles at this ⊢
  rw [this]

/-- C5, the code at a failing input: on the canonical ascending 3 by 3 board
(1 to 8, Empty last), which satisfies the permutation invariant, `isWon`
returns 0; it returns 1 on the descending board 8 7 6 / 5 4 3 / 2 1 Empty. -/
theorem isWon_ascending_board :
    ValidBoard 3 (sessionOfRows [[1, 2, 3], [4, 5, 6], [7, 8, -1]]) ∧
      boardCells (sessionOfRows [[1, 2, 3], [4, 5, 6], [7, 8, -1]]) = canonicalCells 3 ∧
      isWon (sessionOfRows [[1, 2, 3], [4, 5, 6], [7, 8, -1]]) = 0 ∧
      ValidBoard 3 (sessionOfRows [[8, 7, 6], [5, 4, 3], [2, 1, -1]]) ∧
      isWon (sessionOfRows [[8, 7, 6], [5, 4, 3], [2, 1, -1]]) = 1 := by
  decide

/-! ## Persistence -/

theorem scanToken_printTile (v : Int) (h1 : -1 ≤ v) (h2 : v ≤ 80) (rest : List Char) :
    scanToken (printTile v ++ rest) = (' ' :: rest, false) := by
  interval_cases v <;> rfl

theorem scanInt3_printTile (v : Int) (h1 : -1 ≤ v) (h2 : v ≤ 80) (rest : List Char) :
    scanInt3 (printTile v ++ rest) = (some v, ' ' :: rest) := by
  interval_cases v <;> rfl

theorem scanToken_space (x : List Char) : scanToken (' ' :: x) = scanToken x := by
  rfl

theorem scanInt3_space (x : List Char) : scanInt3 (' ' :: x) = scanInt3 x := by
  rfl

theorem length_flatMap_printTile (vs : List Int) : vs.length ≤ (vs.flatMap printTile).length := by
  induction vs with
  | nil => simp
  | cons v vs ih =>
    rw [List.flatMap_cons, List.length_append, List.length_cons]
    have : 1 ≤ (printTile v).length := by
      unfold printTile
      simp only [List.length_append, List.length_replicate, List.length_cons, List.length_nil]
      omega
    omega

/-- The token count of `loadBoardSize` on text written by `saveGame`: one
iteration per tile and one more that runs into the end of the file. -/
theorem countLoop_saved (vs : List Int) (hgood : ∀ v ∈ vs, -1 ≤ v ∧ v ≤ 80) :
    ∀ (fuel : Nat) (k : Int), vs.length + 2 ≤ fuel →
      countLoop fuel (vs.flatMap printTile) false k = k + vs.length + 1 ∧
      countLoop fuel (' ' :: vs.flatMap printTile) false k = k + vs.length + 1 := by
  induction vs with
  | nil =>
    intro fuel k hf
    obtain ⟨f, rfl⟩ : ∃ f, fuel = f + 2 := ⟨fuel - 2, by simp at hf; omega⟩
    constructor <;> simp [countLoop, scanToken, skipSpace, isSpace]
  | cons v vs ih =>
    intro fuel k hf
    obtain ⟨f, rfl⟩ : ∃ f, fuel = f + 1 := ⟨fuel - 1, by simp at hf; omega⟩
    have hv := hgood v (List.mem_cons_self _ _)
    have hrest := (ih (fun x hx => hgood x (List.mem_cons_of_mem _ hx)) f (k + 1)
      (by simp at hf ⊢; omega)).2
    have hstep : countLoop (f + 1) ((v :: vs).flatMap printTile) false k =
        k + ((v :: vs).length : Nat) + 1 := by
      rw [List.flatMap_cons]
      simp only [countLoop, Bool.false_eq_true, if_false,
        scanToken_printTile v hv.1 hv.2, hrest, List.length_cons]
      push_cast
      ring
    refine ⟨hstep, ?_⟩
    have hsp : countLoop (f + 1) (' ' :: (v :: vs).flatMap printTile) false k =
        countLoop (f + 1) ((v :: vs).flatMap printTile) false k := by
      simp only [countLoop, scanToken_space]
    rw [hsp, hstep]

/-- The cells `loadGame` reads back from text written by `saveGame`. -/
theorem loadTilesLoop_saved (cs : List (Int × Int)) :
    ∀ (vs : List Int) (b : Int → Int → Int), cs.length = vs.length → cs.Nodup →
      (∀ v ∈ vs, -1 ≤ v ∧ v ≤ 80) →
      ((cs.map fun p => loadTilesLoop cs (vs.flatMap printTile) b p.1 p.2) = vs ∧
        ∀ i j, (i, j) ∉ cs → loadTilesLoop cs (vs.flatMap printTile) b i j = b i j) ∧
      ((cs.map fun p => loadTilesLoop cs (' ' :: vs.flatMap printTile) b p.1 p.2) = vs ∧
        ∀ i j, (i, j) ∉ cs → loadTilesLoop cs (' ' :: vs.flatMap printTile) b i j = b i j) := by
  induction cs with
  | nil =>
    intro vs b hl _ _
    have : vs = [] := List.length_eq_zero.mp (by simpa using hl.symm)
    subst this
    simp [loadTilesLoop]
  | cons p cs ih =>
    intro vs b hl hnd hgood
    cases vs with
    | nil => simp at hl
    | cons v vs =>
      have hv := hgood v (List.mem_cons_self _ _)
      have hpcs : p ∉ cs := (List.nodup_cons.mp hnd).1
      obtain ⟨hm, ho⟩ := (ih vs (writeCell b p.1 p.2 v) (by simpa using hl)
        (List.nodup_cons.mp hnd).2 (fun x hx => hgood x (List.mem_cons_of_mem _ hx))).2
      have hstep : loadTilesLoop (p :: cs) ((v :: vs).flatMap printTile) b =
          loadTilesLoop cs (' ' :: vs.flatMap printTile) (writeCell b p.1 p.2 v) := by
        rw [List.flatMap_cons]
        simp only [loadTilesLoop, scanInt3_printTile v hv.1 hv.2]
      have hsp : loadTilesLoop (p :: cs) (' ' :: (v :: vs).flatMap printTile) b =
          loadTilesLoop (p :: cs) ((v :: vs).flatMap printTile) b := by
        simp only [loadTilesLoop, scanInt3_space]
      have hmain : ((p :: cs).map fun q =>
            loadTilesLoop cs (' ' :: vs.flatMap printTile) (writeCell b p.1 p.2 v) q.1 q.2) =
          v :: vs ∧
          ∀ i j, (i, j) ∉ p :: cs →
            loadTilesLoop cs (' ' :: vs.flatMap printTile) (writeCell b p.1 p.2 v) i j = b i j := by
        constructor
        · rw [List.map_cons, hm, ho p.1 p.2 hpcs, writeCell_same]
        · intro i j hij
          have h1 : (i, j) ∉ cs := fun hc => hij (List.mem_cons_of_mem _ hc)
          have h2 : (i, j) ≠ (p.1, p.2) := fun hc => hij (by rw [hc]; exact List.mem_cons_self _ _)
          rw [ho i j h1, writeCell_other _ _ _ _ _ _ h2]
      rw [hsp, hstep]
      exact ⟨hmain, hmain⟩

theorem intSqrt_square (n : Int) (h3 : 3 ≤ n) (h9 : n ≤ 9) : intSqrt (n * n) = n := by
  interval_cases n <;> decide

/-- On a valid board the cells are a rearrangement of the tile values. -/
theorem validBoard_perm (n : Int) (hn : 1 ≤ n) (s : Session) (hv : ValidBoard n s) :
    (tileValues n).Perm (boardCells s) := by
  apply ((nodup_tileValues n).subperm ?_).perm_of_length_le
  · unfold boardCells
    rw [List.length_map, length_cellIndices, hv.1, length_tileValues n hn]
  · intro v hvm
    exact List.count_pos_iff.mp (by rw [hv.2.2.2.2 v hvm]; decide)

theorem validBoard_cells_small (n : Int) (h1 : 1 ≤ n) (h9 : n ≤ 9) (s : Session)
    (hv : ValidBoard n s) : ∀ v ∈ boardCells s, -1 ≤ v ∧ v ≤ 80 := by
  intro v hvm
  have := (validBoard_perm n h1 s hv).mem_iff.mpr hvm
  rw [mem_tileValues] at this
  have : n * n ≤ 81 := by nlinarith
  omega

theorem scanToken_progress (f : List Char) :
    (scanToken f).2 = true ∨ (scanToken f).1.length < f.length := by
  induction f with
  | nil => left; rfl
  | cons c cs ih =>
    by_cases hc : isSpace c = true
    · have : scanToken (c :: cs) = scanToken cs := by
        simp [scanToken, skipSpace, List.dropWhile_cons, hc]
      rw [this]
      rcases ih with h | h
      · exact Or.inl h
      · right; simp only [List.length_cons]; omega
    · have hs : skipSpace (c :: cs) = c :: cs := by
        simp [skipSpace, List.dropWhile_cons, hc]
      have hd : (c :: cs).dropWhile (fun x => !isSpace x) = cs.dropWhile (fun x => !isSpace x) := by
        simp [List.dropWhile_cons, hc]
      have hlen := (List.dropWhile_sublist (l := cs) (fun x => !isSpace x)).length_le
      unfold scanToken
      rw [hs]
      simp only [hd]
      cases hcs : cs.dropWhile (fun x => !isSpace x) with
      | nil => left; rfl
      | cons d ds =>
        right
        rw [hcs] at hlen
        simp only [List.length_cons] at hlen ⊢
        omega

/-- The iteration bound of `countLoop` is never what stops the loop: any two
bounds of at least `length + 2` give the same count. -/
theorem countLoop_fuel (n : Nat) :
    ∀ (f : List Char) (eof : Bool) (k : Int) (fuel1 fuel2 : Nat), f.length ≤ n →
      f.length + 2 ≤ fuel1 → f.length + 2 ≤ fuel2 →
      countLoop fuel1 f eof k = countLoop fuel2 f eof k := by
  induction n with
  | zero =>
    intro f eof k fuel1 fuel2 hn h1 h2
    obtain ⟨g1, rfl⟩ : ∃ g, fuel1 = g + 2 := ⟨fuel1 - 2, by omega⟩
    obtain ⟨g2, rfl⟩ : ∃ g, fuel2 = g + 2 := ⟨fuel2 - 2, by omega⟩
    have hf : f = [] := List.length_eq_zero.mp (by omega)
    subst hf
    cases eof <;> simp [countLoop, scanToken, skipSpace]
  | succ n ih =>
    intro f eof k fuel1 fuel2 hn h1 h2
    obtain ⟨g1, rfl⟩ : ∃ g, fuel1 = g + 2 := ⟨fuel1 - 2, by omega⟩
    obtain ⟨g2, rfl⟩ : ∃ g, fuel2 = g + 2 := ⟨fuel2 - 2, by omega⟩
    cases eof with
    | true => simp [countLoop]
    | false =>
      cases hst : scanToken f with
      | mk f1 e1 =>
        have hp := scanToken_progress f
        rw [hst] at hp
        simp only [countLoop, Bool.false_eq_true, if_false, hst]
        cases e1 with
        | true => simp
        | false =>
          simp only [Bool.false_eq_true, if_false]
          have hlt : f1.length < f.length := by simpa using hp
          have := ih f1 false (k + 1) (g1 + 1) (g2 + 1) (by omega) (by omega) (by omega)
          simpa [countLoop] using this

theorem length_boardCells (n : Int) (s : Session) (h : s.boardSize = n) :
    (boardCells s).length = n.toNat * n.toNat := by
  unfold boardCells
  rw [List.length_map, length_cellIndices, h]

theorem loadBoardSize_saved (n : Int) (h1 : 1 ≤ n) (h9 : n ≤ 9) (s0 : Session)
    (hv : ValidBoard n s0) (path : String) (fs : FileSys)
    (hc : fs.content path = some ((boardCells s0).flatMap printTile)) :
    loadBoardSize path fs = SizeResult.returns (n * n) := by
  unfold loadBoardSize
  rw [hc]
  simp only
  rw [(countLoop_saved (boardCells s0) (validBoard_cells_small n h1 h9 s0 hv) _ 0
    (by have := length_flatMap_printTile (boardCells s0); omega)).1,
    length_boardCells n s0 hv.1]
  congr 1
  push_cast
  rw [Int.toNat_of_nonneg (by omega)]
  ring

/-- `loadGame` on a file holding the text `saveGame` writes for a valid board
`s0` of size `n`: the load succeeds and the session holds that board. -/
theorem loadGame_saved (n : Int) (h3 : 3 ≤ n) (h9 : n ≤ 9) (s0 : Session)
    (hv : ValidBoard n s0) (path : String) (fresh : Int → Int → Int) (fs : FileSys)
    (s : Session) (hc : fs.content path = some ((boardCells s0).flatMap printTile)) :
    ∃ s2, loadGame path fresh fs s = some (1, s2) ∧ ValidBoard n s2 ∧ s2.isLoadingGame = 0 ∧
      s2.gamesPlayed = wrapInt (s.gamesPlayed + 1) ∧
      ∀ i j : Int, 0 ≤ i → i < n → 0 ≤ j → j < n → s2.board i j = s0.board i j := by
  have hsize := loadBoardSize_saved n (by omega) h9 s0 hv path fs hc
  obtain ⟨s1, hi⟩ := initializeGame_isSome n h3 h9 fresh [] { s with isLoadingGame := 1 }
    (Or.inl rfl)
  obtain ⟨_, a1, a2, a3, a4, a5, a6, _, _, a9⟩ :=
    initializeGame_accept n h3 h9 fresh [] { s with isLoadingGame := 1 } 1 s1 hi
  have hne : ¬ (n * n = -1) := by nlinarith
  have hlen : (cellIndices n).length = (boardCells s0).length := by
    rw [length_cellIndices, length_boardCells n s0 hv.1]
  obtain ⟨hm, _⟩ := (loadTilesLoop_saved (cellIndices n) (boardCells s0) s1.board hlen
    (nodup_cellIndices n) (validBoard_cells_small n (by omega) h9 s0 hv)).1
  have htext : boardCells s0 = (cellIndices n).map fun p => s0.board p.1 p.2 := by
    unfold boardCells; rw [hv.1]
  have hcells : ∀ p ∈ cellIndices n,
      loadTilesLoop (cellIndices n) ((boardCells s0).flatMap printTile) s1.board p.1 p.2 =
        s0.board p.1 p.2 := List.map_inj_left.mp (hm.trans htext)
  have hload : loadGame path fresh fs s = some (1, { s1 with
      board := loadTilesLoop (cellIndices n) ((boardCells s0).flatMap printTile) s1.board }) := by
    unfold loadGame
    simp only [hsize, hne, if_false, intSqrt_square n h3 h9, hi, hc, Option.getD_some, a1]
  refine ⟨_, hload, ?_, a6, a5, ?_⟩
  · refine ⟨a1, a2, a3, a4, ?_⟩
    intro v hvm
    have hb : boardCells { s1 with
        board := loadTilesLoop (cellIndices n) ((boardCells s0).flatMap printTile) s1.board } =
        boardCells s0 := by
      refine Eq.trans ?_ htext.symm
      show (cellIndices s1.boardSize).map (fun p =>
        loadTilesLoop (cellIndices n) ((boardCells s0).flatMap printTile) s1.board p.1 p.2) = _
      rw [a1]
      exact List.map_inj_left.mpr hcells
    rw [hb]
    exact hv.2.2.2.2 v hvm
  · intro i j i0 i1 j0 j1
    exact hcells (i, j) ((mem_cellIndices n _).mpr ⟨⟨i0, i1⟩, ⟨j0, j1⟩⟩)

/-- C6, round trip: for `N` in `[3,9]` and an `N` by `N` board satisfying the
permutation invariant, when `saveGame(path)` succeeds, `loadGame(path)` run
in any session `s0` on the files the save leaves returns 1 and the session
then has board size `N` and a grid equal cell for cell to the board that was
saved. -/
theorem save_load_roundtrip (N : Int) (s : Session) (fs : FileSys) (path : String)
    (fresh : Int → Int → Int) (s0 : Session) (h3 : 3 ≤ N) (h9 : N ≤ 9) (hv : ValidBoard N s)
    (hsave : (saveGame path s fs).1 = 1) :
    ∃ s2, loadGame path fresh (saveGame path s fs).2 s0 = some (1, s2) ∧ s2.boardSize = N ∧
      ∀ i j : Int, 0 ≤ i → i < N → 0 ≤ j → j < N → s2.board i j = s.board i j := by
  have hw : fs.writable path = true := by
    by_contra hc
    simp [saveGame, hc] at hsave
  have hfs : ((saveGame path s fs).2).content path = some ((boardCells s).flatMap printTile) := by
    simp [saveGame, hw, FileSys.store]
  obtain ⟨s2, h1, h2, _, _, h5⟩ := loadGame_saved N h3 h9 s hv path fresh _ s0 hfs
  exact ⟨s2, h1, h2.1, h5⟩

/-- C6 on the board 8 7 6 / 5 _ 4 / 3 2 1, saved as `t1.txt` and loaded in a
session that holds the 4 by 4 board 1 2 ... 15 _ , with newly allocated cells
all 7. -/
theorem save_load_roundtrip_witness :
    ∃ s2, loadGame "t1.txt" (fun _ _ => 7)
        (saveGame "t1.txt" (sessionOfRows [[8, 7, 6], [5, -1, 4], [3, 2, 1]]) noFiles).2
        (sessionOfRows [[1, 2, 3, 4], [5, 6, 7, 8], [9, 10, 11, 12], [13, 14, 15, -1]]) =
          some (1, s2) ∧
      s2.boardSize = 3 ∧
      ∀ i j : Int, 0 ≤ i → i < 3 → 0 ≤ j → j < 3 →
        s2.board i j = (sessionOfRows [[8, 7, 6], [5, -1, 4], [3, 2, 1]]).board i j :=
  save_load_roundtrip 3 (sessionOfRows [[8, 7, 6], [5, -1, 4], [3, 2, 1]]) noFiles "t1.txt"
    (fun _ _ => 7)
    (sessionOfRows [[1, 2, 3, 4], [5, 6, 7, 8], [9, 10, 11, 12], [13, 14, 15, -1]])
    (by decide) (by decide) (by decide) (by decide)

/-- C9, the code at a failing input: with the board 8 7 6 / 5 _ 4 / 3 2 1 and
no file `t1.txt`, `loadBoardSize` is killed in `fclose(filePtr)` with
`filePtr == NULL`, so `loadGame` does not return 0: it does not return.  On
the directory `saves` the counting loop never ends and `loadGame` does not
return either. -/
theorem loadGame_missing_file :
    noFiles.content "t1.txt" = none ∧
      loadBoardSize "t1.txt" noFiles = SizeResult.killed ∧
      (loadGame "t1.txt" (fun _ _ => 0) noFiles
        (sessionOfRows [[8, 7, 6], [5, -1, 4], [3, 2, 1]])).isSome = false ∧
      loadBoardSize "saves" (oneDirectory "saves") = SizeResult.endless ∧
      (loadGame "saves" (fun _ _ => 0) (oneDirectory "saves")
        (sessionOfRows [[8, 7, 6], [5, -1, 4], [3, 2, 1]])).isSome = false := by
  decide

/-- C8, the code at a failing input: with the board 8 7 6 / 5 _ 4 / 3 2 1 and
a readable file of four tokens (derived size 2), `loadGame` returns 1, the
first four cells are overwritten from the file and `isLoadingGame` stays 1. -/
theorem loadGame_four_tokens :
    (loadGame "t1.txt" (fun _ _ => 0) (oneFile "t1.txt" "1 2 3 4 ")
        (sessionOfRows [[8, 7, 6], [5, -1, 4], [3, 2, 1]])).map
      (fun r => (r.1, r.2.boardSize, boardCells r.2, r.2.isLoadingGame)) =
      some (1, 3, [1, 2, 3, 4, -1, 4, 3, 2, 1], 1) := by
  decide

/-! ## Server loop -/

/-- `loadGame` does not return for a name without readable text. -/
theorem loadGame_no_content (path : String) (fresh : Int → Int → Int) (fs : FileSys)
    (s : Session) (h : fs.content path = none) : loadGame path fresh fs s = none := by
  unfold loadGame loadBoardSize
  rw [h]
  by_cases hd : fs.isDirectory path = true <;> simp [hd]

theorem moveTile_valid (n : Int) (s : Session) (t : Int) (hv : ValidBoard n s) :
    ValidBoard n (moveTile t s).2 ∧ (moveTile t s).2.isLoadingGame = s.isLoadingGame := by
  obtain ⟨hres, f1, f2, f3, f4, f5, _, _, f8⟩ := isMoveValid_fields s t
  rcases hres with h0 | h1
  · have hm : moveTile t s = (0, (isMoveValid t s).2) := by
      unfold moveTile
      cases hi : isMoveValid t s with
      | mk valid s0 =>
        rw [hi] at h0
        simp only at h0
        simp [h0]
    rw [hm]
    refine ⟨?_, f8⟩
    obtain ⟨v1, v2, v3, v4, v5⟩ := hv
    refine ⟨f2.trans v1, f3.trans v2, f4.trans v3, f5.trans v4, ?_⟩
    intro v hvm
    have : boardCells (isMoveValid t s).2 = boardCells s := by
      unfold boardCells
      rw [f1, f2]
    rw [this]
    exact v5 v hvm
  · obtain ⟨h1', h2, pt, pe, hpt, hbt, hpe, hbe, hadj⟩ := isMoveValid_legal_data n s t hv h1
    have hne : pt ≠ pe := by
      intro he; rw [he, hbe] at hbt; omega
    rw [moveTile_eval n s t hv h1' h2 pt pe hpt hbt hpe hbe hadj]
    refine ⟨?_, rfl⟩
    obtain ⟨v1, v2, v3, v4, v5⟩ := hv
    refine ⟨v1, v2, v3, v4, ?_⟩
    intro v hvm
    have := count_exchange n s.board pt pe hpt hpe hne v
    rw [hbt, hbe] at this
    show ((cellIndices s.boardSize).map fun p =>
      writeCell (writeCell s.board pe.1 pe.2 t) pt.1 pt.2 (-1) p.1 p.2).count v = 1
    rw [v1, this]
    have h5 := v5 v hvm
    unfold boardCells at h5
    rw [v1] at h5
    exact h5

theorem initializeGame_inv (size : Int) (fresh : Int → Int → Int) (draws : List Nat)
    (s : Session) (r : Int) (s2 : Session) (hinv : SessionInv s)
    (h : initializeGame size fresh draws s = some (r, s2)) : SessionInv s2 := by
  by_cases hr : size < 3 ∨ size > 9
  · rw [initializeGame_reject size fresh draws s hr] at h
    simp only [Option.some.injEq, Prod.mk.injEq] at h
    rw [← h.2]; exact hinv
  · obtain ⟨_, _, _, _, _, _, a6, _, a8, _⟩ :=
      initializeGame_accept size (by omega) (by omega) fresh draws s r s2 h
    have hne : s.isLoadingGame ≠ 1 := by rw [hinv.2]; decide
    exact ⟨⟨size, by omega, by omega, a8 hne⟩, a6⟩

theorem loadGame_inv (path : String) (fresh : Int → Int → Int) (fs : FileSys) (s : Session)
    (r : Int) (s2 : Session) (_hinv : SessionInv s) (hfs : SavedFiles fs)
    (h : loadGame path fresh fs s = some (r, s2)) : SessionInv s2 := by
  cases hc : fs.content path with
  | none =>
    rw [loadGame_no_content path fresh fs s hc] at h
    exact absurd h (by simp)
  | some text =>
    obtain ⟨n, s0, h3, h9, hv, rfl⟩ := hfs path text hc
    obtain ⟨s3, hl, hv3, hflag, _⟩ := loadGame_saved n h3 h9 s0 hv path fresh fs s hc
    rw [hl] at h
    simp only [Option.some.injEq, Prod.mk.injEq] at h
    rw [← h.2]
    exact ⟨⟨n, h3, h9, hv3⟩, hflag⟩

theorem saveGame_files (path : String) (s : Session) (fs : FileSys) (hinv : SessionInv s)
    (hfs : SavedFiles fs) : SavedFiles (saveGame path s fs).2 := by
  unfold saveGame
  by_cases hw : fs.writable path = true
  · simp only [hw, if_true]
    intro name text hc
    simp only [FileSys.store] at hc
    by_cases hn : name = path
    · simp only [hn, if_true, Option.some.injEq] at hc
      obtain ⟨⟨n, h3, h9, hv⟩, _⟩ := hinv
      exact ⟨n, s, h3, h9, hv, hc.symm⟩
    · simp only [hn, if_false] at hc
      exact hfs name text hc
  · simp only [hw]
    exact hfs

/-- One pass of the server loop keeps a valid board in the session, the load
flag clear and the readable files saved valid boards. -/
theorem serverCycle_inv (recieved : Command) (env : CycleEnv) (st : Server) (out : List Int)
    (st1 : Server) (hinv : SessionInv st.session) (hfs : SavedFiles st.files)
    (h : serverCycle recieved env st = some (out, st1)) :
    SessionInv st1.session ∧ SavedFiles st1.files := by
  unfold serverCycle at h
  simp only at h
  cases hw : (if isWon st.session = 1 then
      initializeGame 4 env.winFresh env.winDraws st.session else some (0, st.session)) with
  | none => rw [hw] at h; simp at h
  | some res =>
    obtain ⟨r, s1⟩ := res
    rw [hw] at h
    have hs1 : SessionInv s1 := by
      by_cases hwon : isWon st.session = 1
      · simp only [hwon, if_true] at hw
        exact initializeGame_inv 4 _ _ _ r s1 hinv hw
      · simp only [hwon, if_false, Option.some.injEq, Prod.mk.injEq] at hw
        rw [← hw.2]; exact hinv
    cases recieved with
    | print =>
      simp only [Option.some.injEq, Prod.mk.injEq] at h
      rw [← h.2]; exact ⟨hs1, hfs⟩
    | save fileName =>
      simp only [Option.some.injEq, Prod.mk.injEq] at h
      rw [← h.2]; exact ⟨hs1, saveGame_files fileName s1 st.files hs1 hfs⟩
    | load fileName =>
      cases hl : loadGame fileName env.fresh st.files s1 with
      | none => simp [hl] at h
      | some res2 =>
        obtain ⟨ok, s2⟩ := res2
        simp only [hl, Option.some.injEq, Prod.mk.injEq] at h
        rw [← h.2]; exact ⟨loadGame_inv fileName _ _ s1 ok s2 hs1 hfs hl, hfs⟩
    | new newSize =>
      cases hl : initializeGame newSize env.fresh env.draws s1 with
      | none => simp [hl] at h
      | some res2 =>
        obtain ⟨ok, s2⟩ := res2
        simp only [hl, Option.some.injEq, Prod.mk.injEq] at h
        rw [← h.2]; exact ⟨initializeGame_inv newSize _ _ s1 ok s2 hs1 hl, hfs⟩
    | move tileToMove =>
      simp only [Option.some.injEq, Prod.mk.injEq] at h
      rw [← h.2]
      obtain ⟨⟨n, h3, h9, hv⟩, hflag⟩ := hs1
      obtain ⟨m1, m2⟩ := moveTile_valid n s1 tileToMove hv
      exact ⟨⟨⟨n, h3, h9, m1⟩, m2.trans hflag⟩, hfs⟩
    | noAction =>
      simp only [Option.some.injEq, Prod.mk.injEq] at h
      rw [← h.2]; exact ⟨hs1, hfs⟩

theorem runCycles_inv (inputs : List (Command × CycleEnv)) :
    ∀ (st st1 : Server), SessionInv st.session → SavedFiles st.files →
      runCycles inputs st = some st1 → SessionInv st1.session ∧ SavedFiles st1.files := by
  induction inputs with
  | nil =>
    intro st st1 hinv hfs h
    simp only [runCycles, Option.some.injEq] at h
    rw [← h]; exact ⟨hinv, hfs⟩
  | cons x rest ih =>
    intro st st1 hinv hfs h
    obtain ⟨recieved, env⟩ := x
    simp only [runCycles] at h
    cases hc : serverCycle recieved env st with
    | none => simp [hc] at h
    | some res =>
      obtain ⟨out, st2⟩ := res
      simp only [hc] at h
      obtain ⟨i1, i2⟩ := serverCycle_inv recieved env st out st2 hinv hfs hc
      exact ih st2 st1 i1 i2 h

theorem serverStart_inv (fresh : Int → Int → Int) (draws : List Nat) (fs0 : FileSys)
    (st : Server) (hfs : SavedFiles fs0) (h : serverStart fresh draws fs0 = some st) :
    SessionInv st.session ∧ SavedFiles st.files := by
  unfold serverStart at h
  cases hi : initializeGame 4 fresh draws startup with
  | none => simp [hi] at h
  | some res =>
    obtain ⟨r, s⟩ := res
    simp only [hi, Option.some.injEq] at h
    rw [← h]
    obtain ⟨_, _, _, _, _, _, a6, _, a8, _⟩ :=
      initializeGame_accept 4 (by decide) (by decide) fresh draws startup r s hi
    exact ⟨⟨⟨4, by decide, by decide, a8 (by decide)⟩, a6⟩, hfs⟩

/-- C10, refuted as stated: from program start with a readable file `t1.txt`
of nine tokens `1`, the command Load `t1.txt` leads to a state whose board is
3 by 3 with every cell 1, which is a valid board for no size. -/
theorem reachable_invalid_counterexample :
    ∃ st : Server, Reachable (oneFile "t1.txt" "1 1 1 1 1 1 1 1 1 ") st ∧
      st.session.boardSize = 3 ∧ boardCells st.session = [1, 1, 1, 1, 1, 1, 1, 1, 1] ∧
      ¬ ∃ N : Int, 3 ≤ N ∧ N ≤ 9 ∧ ValidBoard N st.session := by
  have hrun : onesRun.map (fun st => (st.session.boardSize, boardCells st.session)) =
      some (3, [1, 1, 1, 1, 1, 1, 1, 1, 1]) := by decide
  unfold onesRun at hrun
  cases h0 : serverStart (fun _ _ => 0) (List.range 16)
      (oneFile "t1.txt" "1 1 1 1 1 1 1 1 1 ") with
  | none => rw [h0] at hrun; simp at hrun
  | some st0 =>
    rw [h0] at hrun
    simp only [Option.some_bind] at hrun
    cases h1 : runCycles
        [(Command.load "t1.txt", ⟨fun _ _ => 0, List.range 16, fun _ _ => 0, []⟩)] st0 with
    | none => rw [h1] at hrun; simp at hrun
    | some st =>
      rw [h1] at hrun
      simp only [Option.map_some', Option.some.injEq, Prod.mk.injEq] at hrun
      refine ⟨st, ⟨_, _, _, st0, h0, h1⟩, hrun.1, hrun.2, ?_⟩
      rintro ⟨N, _, _, hv⟩
      have hc := hv.2.2.2.2 (-1) ((mem_tileValues N _).mpr (Or.inl rfl))
      rw [hrun.2] at hc
      revert hc
      decide

/-- C10, amended: when every file that can be opened for reading at program
start holds the text `saveGame` writes for a valid board of a size in `[3,9]`,
every server state reachable from startup by any sequence of commands holds a
valid board: an `N` by `N` grid with `3 ≤ N ≤ 9` in which Empty occurs exactly
once and each integer of `[1, N*N-1]` occurs exactly once. -/
theorem reachable_valid_of_saved_files (fs0 : FileSys) (st : Server) (hfs : SavedFiles fs0)
    (hr : Reachable fs0 st) :
    ∃ N : Int, 3 ≤ N ∧ N ≤ 9 ∧ st.session.boardSize = N ∧
      (boardCells st.session).count (-1) = 1 ∧
      ∀ v : Int, 1 ≤ v → v ≤ N * N - 1 → (boardCells st.session).count v = 1 := by
  obtain ⟨fresh, draws, inputs, st0, h0, h1⟩ := hr
  obtain ⟨i1, i2⟩ := serverStart_inv fresh draws fs0 st0 hfs h0
  obtain ⟨⟨⟨N, h3, h9, hv⟩, _⟩, _⟩ := runCycles_inv inputs st0 st i1 i2 h1
  obtain ⟨a1, _, _, _, a5, a6⟩ := (validBoard_iff N st.session).mp hv
  exact ⟨N, h3, h9, a1, a5, a6⟩

/-- C10 amended, on the state after start, Save `t1.txt`, Load `t1.txt` and
Move 4, with no readable file at start. -/
theorem reachable_valid_of_saved_files_witness :
    ∃ N : Int, 3 ≤ N ∧ N ≤ 9 ∧ sampleServer.session.boardSize = N ∧
      (boardCells sampleServer.session).count (-1) = 1 ∧
      ∀ v : Int, 1 ≤ v → v ≤ N * N - 1 → (boardCells sampleServer.session).count v = 1 :=
  reachable_valid_of_saved_files noFiles sampleServer
    (fun name text h => by simp [noFiles] at h)
    (by
      have hsome : sampleRun.isSome = true := by decide
      unfold sampleServer
      cases hrun : sampleRun with
      | none => rw [hrun] at hsome; simp at hsome
      | some st =>
        simp only [Option.getD_some]
        unfold sampleRun at hrun
        cases h0 : serverStart (fun _ _ => 0) (List.range 16) noFiles with
        | none => rw [h0] at hrun; simp at hrun
        | some st0 =>
          rw [h0] at hrun
          simp only [Option.some_bind] at hrun
          exact ⟨_, _, _, st0, h0, hrun⟩)

/-! ## Load flag and token count -/

/-- C16, the code at a failing input: on the file `1 2 3` (three tokens, no
trailing white space) `loadBoardSize` returns 2; on `1 2 3 ` it returns 3. -/
theorem loadBoardSize_no_trailing_space :
    specTokenCount "1 2 3".toList = 3 ∧
      loadBoardSize "t1.txt" (oneFile "t1.txt" "1 2 3") = SizeResult.returns 2 ∧
      specTokenCount "1 2 3 ".toList = 3 ∧
      loadBoardSize "t1.txt" (oneFile "t1.txt" "1 2 3 ") = SizeResult.returns 3 := by
  decide

/-- C20, the code at a failing input: from the board 8 7 6 / 5 _ 4 / 3 2 1 with
the load flag clear, Load of a four-token file leaves `isLoadingGame` at 1, and
the New(3) that follows returns 1 with a board that is the newly allocated
memory (all 7 here), not a random fill, although the draws reach every slot. -/
theorem load_flag_left_set :
    (sessionOfRows [[8, 7, 6], [5, -1, 4], [3, 2, 1]]).isLoadingGame = 0 ∧
      ((runCycles [(Command.load "t1.txt", sevensEnv)]
          ⟨sessionOfRows [[8, 7, 6], [5, -1, 4], [3, 2, 1]], oneFile "t1.txt" "1 2 3 4 "⟩).map
        fun st => st.session.isLoadingGame) = some 1 ∧
      ((runCycles [(Command.load "t1.txt", sevensEnv), (Command.new 3, sevensEnv)]
          ⟨sessionOfRows [[8, 7, 6], [5, -1, 4], [3, 2, 1]], oneFile "t1.txt" "1 2 3 4 "⟩).map
        fun st => (st.session.boardSize, boardCells st.session)) =
        some (3, [7, 7, 7, 7, 7, 7, 7, 7, 7]) := by
  decide

/-- C13, the code at a failing input: after start, Load of an empty file and
Move 12 the board is the winning 4 by 4 board and `isLoadingGame` is 1; the
next pass writes the win flag 1 and `initialize(4)` leaves the newly allocated
memory (all 7 here) as the board instead of a generated one. -/
theorem win_reset_without_fill :
    (stuckFlagRun.map fun st =>
        (isWon st.session, boardCells st.session, st.session.isLoadingGame)) =
      some (1, [-1, 15, 14, 13, 12, 11, 10, 9, 8, 7, 6, 5, 4, 3, 2, 1], 1) ∧
    ((stuckFlagRun.bind (serverCycle Command.noAction sevensEnv)).map fun r =>
        (r.1, r.2.session.boardSize, boardCells r.2.session)) =
      some ([1], 4, [7, 7, 7, 7, 7, 7, 7, 7, 7, 7, 7, 7, 7, 7, 7, 7]) := by
  decide

/-! ## Save-file format -/

theorem printTile_eq_specField (v : Int) (h1 : -1 ≤ v) (h2 : v ≤ 80) :
    printTile v = specField v ∧ (printTile v).length = 3 := by
  interval_cases v <;> decide

theorem length_flatMap_three (vs : List Int) (h : ∀ v ∈ vs, (printTile v).length = 3) :
    (vs.flatMap printTile).length = 3 * vs.length := by
  induction vs with
  | nil => simp
  | cons v vs ih =>
    rw [List.flatMap_cons, List.length_append, h v (List.mem_cons_self _ _),
      ih (fun x hx => h x (List.mem_cons_of_mem _ hx)), List.length_cons]
    ring

/-- C11: for `N` in `[3,9]` and a board satisfying the permutation invariant,
a successful `saveGame` leaves under the given name exactly the tiles in
row-major order, each as a right-aligned two-character decimal field followed
by one space (Empty as `-1`), `3*N*N` characters in all and nothing else. -/
theorem saveGame_text (N : Int) (s : Session) (fs : FileSys) (path : String) (h3 : 3 ≤ N)
    (h9 : N ≤ 9) (hv : ValidBoard N s) (hsave : (saveGame path s fs).1 = 1) :
    ∃ text : List Char, (saveGame path s fs).2.content path = some text ∧
      text = (boardCells s).flatMap specField ∧ text.length = (3 * N * N).toNat ∧
      (∀ v ∈ boardCells s, (specField v).length = 3) ∧
      specField (-1) = ['-', '1', ' '] := by
  have hw : fs.writable path = true := by
    by_contra hc
    simp [saveGame, hc] at hsave
  have hsmall := validBoard_cells_small N (by omega) h9 s hv
  refine ⟨(boardCells s).flatMap printTile, by simp [saveGame, hw, FileSys.store], ?_, ?_, ?_,
    by decide⟩
  · apply List.flatMap_congr
    intro v hvm
    exact (printTile_eq_specField v (hsmall v hvm).1 (hsmall v hvm).2).1
  · rw [length_flatMap_three _ (fun v hvm =>
      (printTile_eq_specField v (hsmall v hvm).1 (hsmall v hvm).2).2),
      length_boardCells N s hv.1]
    have h2 : ((N.toNat * N.toNat : Nat) : Int) = N * N := by
      push_cast
      rw [Int.toNat_of_nonneg (by omega)]
    have h1 : (0 : Int) ≤ N * N := by nlinarith
    have h4 : 3 * N * N = 3 * (N * N) := by ring
    omega
  · intro v hvm
    have := printTile_eq_specField v (hsmall v hvm).1 (hsmall v hvm).2
    rw [← this.1]; exact this.2

/-- C11 on the board 8 7 6 / 5 _ 4 / 3 2 1, saved as `t1.txt`. -/
theorem saveGame_text_witness :
    ∃ text : List Char,
      (saveGame "t1.txt" (sessionOfRows [[8, 7, 6], [5, -1, 4], [3, 2, 1]]) noFiles).2.content
        "t1.txt" = some text ∧
      text = (boardCells (sessionOfRows [[8, 7, 6], [5, -1, 4], [3, 2, 1]])).flatMap specField ∧
      text.length = ((3 : Int) * 3 * 3).toNat ∧
      (∀ v ∈ boardCells (sessionOfRows [[8, 7, 6], [5, -1, 4], [3, 2, 1]]),
        (specField v).length = 3) ∧
      specField (-1) = ['-', '1', ' '] :=
  saveGame_text 3 (sessionOfRows [[8, 7, 6], [5, -1, 4], [3, 2, 1]]) noFiles "t1.txt"
    (by decide) (by decide) (by decide) (by decide)

/-! ## Moves of absent tiles -/

theorem searchBoard_absent (s : Session) (v : Int)
    (habs : ∀ p ∈ cellIndices s.boardSize, s.board p.1 p.2 ≠ v) : searchBoard v s = s := by
  unfold searchBoard
  have : (cellIndices s.boardSize).find? (fun p => s.board p.1 p.2 = v) = none := by
    rw [List.find?_eq_none]
    intro p hp
    simpa using habs p hp
  rw [this]

theorem searchBoard_cases (s : Session) (v : Int) :
    searchBoard v s = s ∨
      ∃ pe ∈ cellIndices s.boardSize, s.board pe.1 pe.2 = v ∧
        searchBoard v s = { s with location := pe } := by
  unfold searchBoard
  cases hf : (cellIndices s.boardSize).find? (fun p => s.board p.1 p.2 = v) with
  | none => left; rfl
  | some q =>
    right
    have hq := List.mem_of_find?_eq_some hf
    have hfq := List.find?_some hf
    simp only [decide_eq_true_eq] at hfq
    exact ⟨q, hq, hfq, rfl⟩

theorem writeCell_restore (b : Int → Int → Int) (i j t : Int) :
    writeCell (writeCell b i j t) i j (b i j) = b := by
  funext i2 j2
  unfold writeCell
  by_cases h : i2 = i ∧ j2 = j
  · simp [h]
  · simp [h]

/-- `moveTile` for a tile value that is nowhere on the board: the board is as
before, and the answer is 1 only when the tile is in range, Empty is on the
board and the old content of `location` is one step from Empty's position. -/
theorem moveTile_absent_aux (s : Session) (t : Int)
    (habs : ∀ p ∈ cellIndices s.boardSize, s.board p.1 p.2 ≠ t) :
    (moveTile t s).2.board = s.board ∧
      ((moveTile t s).1 = 0 ∨
        ((moveTile t s).1 = 1 ∧ 1 ≤ t ∧ t ≤ s.maxTileValue ∧
          ∃ pe ∈ cellIndices s.boardSize, s.board pe.1 pe.2 = -1 ∧
            adjacentCells s.location pe)) := by
  by_cases hr : t < 1 ∨ t > s.maxTileValue
  · have hi : isMoveValid t s = (0, s) := by unfold isMoveValid; simp [hr]
    have hm : moveTile t s = (0, s) := by unfold moveTile; rw [hi]; simp
    rw [hm]; exact ⟨rfl, Or.inl rfl⟩
  · have hs1 := searchBoard_absent s t habs
    rcases searchBoard_cases s emptyTileValue with he | ⟨pe, hpe, hbe, he⟩
    · have hi : isMoveValid t s = (0, s) := by
        unfold isMoveValid
        simp only [hr, if_false, hs1, he]
        have h1 : ¬ (s.location.1 = s.location.1 + 1 ∨ s.location.1 = s.location.1 - 1) := by
          omega
        have h2 : ¬ (s.location.2 = s.location.2 + 1 ∨ s.location.2 = s.location.2 - 1) := by
          omega
        simp only [h1, h2, and_true, if_false]
      have hm : moveTile t s = (0, s) := by unfold moveTile; rw [hi]; simp
      rw [hm]; exact ⟨rfl, Or.inl rfl⟩
    · have hi : isMoveValid t s =
          (if adjacentCells s.location pe then 1 else 0, { s with location := pe }) := by
        unfold isMoveValid
        simp only [hr, if_false, hs1, he, adjacentCells]
        by_cases c1 : (s.location.1 = pe.1 + 1 ∨ s.location.1 = pe.1 - 1) ∧ pe.2 = s.location.2
        · simp [c1]
        · by_cases c2 : (s.location.2 = pe.2 + 1 ∨ s.location.2 = pe.2 - 1) ∧
              pe.1 = s.location.1
          · simp [c1, c2]
          · simp [c1, c2]
      by_cases hadj : adjacentCells s.location pe
      · have hs2 : searchBoard t { s with location := pe } = { s with location := pe } :=
          searchBoard_absent _ t habs
        have hs3 : searchBoard emptyTileValue { s with location := pe } =
            { s with location := pe } := by
          have := he
          unfold searchBoard at this ⊢
          simp only at this ⊢
          cases hf : (cellIndices s.boardSize).find? (fun p => s.board p.1 p.2 = emptyTileValue) with
          | none => rfl
          | some q =>
            rw [hf] at this
            simp only at this
            have hq : q = pe := by
              have := congrArg Session.location this
              exact this
            rw [hq]
        have hm : moveTile t s = (1, { s with
            board := writeCell (writeCell s.board pe.1 pe.2 t) pe.1 pe.2 (-1),
            location := pe }) := by
          unfold moveTile
          rw [hi]
          simp only [hadj, if_true, ne_eq, one_ne_zero, not_false_eq_true, hs2, hs3, setOneTile]
          rfl
        rw [hm]
        refine ⟨?_, Or.inr ⟨rfl, by omega, by omega, pe, hpe, hbe, hadj⟩⟩
        show writeCell (writeCell s.board pe.1 pe.2 t) pe.1 pe.2 (-1) = s.board
        have hbe2 : s.board pe.1 pe.2 = -1 := hbe
        rw [← hbe2]
        exact writeCell_restore s.board pe.1 pe.2 t
      · have hm : moveTile t s = (0, { s with location := pe }) := by
          unfold moveTile; rw [hi]; simp [hadj]
        rw [hm]; exact ⟨rfl, Or.inl rfl⟩

/-- C18, refuted as stated: on the board 1 1 _ / 3 4 5 / 6 7 8 with `location`
holding (0, 1), the tile 2 occurs nowhere, yet `moveTile(2)` returns 1. -/
theorem moveTile_absent_counterexample :
    (2 : Int) ∉ boardCells { sessionOfRows [[1, 1, -1], [3, 4, 5], [6, 7, 8]] with
        location := (0, 1) } ∧
      (moveTile 2 { sessionOfRows [[1, 1, -1], [3, 4, 5], [6, 7, 8]] with
        location := (0, 1) }).1 = 1 := by
  decide

/-- C18, amended: for every board, every prior content of `location` and every
tile value `t` that occurs nowhere on the board, `moveTile(t)` leaves the board
unchanged; it returns 0 unless `t` is in `[1, maxTileValue]`, Empty is on the
board and the prior content of `location` is one step from Empty's position;
on a board satisfying the permutation invariant it returns 0. -/
theorem moveTile_absent_tile (s : Session) (t : Int)
    (habs : ∀ p ∈ cellIndices s.boardSize, s.board p.1 p.2 ≠ t) :
    (moveTile t s).2.board = s.board ∧
      ((moveTile t s).1 = 0 ∨
        (1 ≤ t ∧ t ≤ s.maxTileValue ∧
          ∃ pe ∈ cellIndices s.boardSize, s.board pe.1 pe.2 = -1 ∧
            adjacentCells s.location pe)) ∧
      (∀ n : Int, ValidBoard n s → (moveTile t s).1 = 0) := by
  obtain ⟨hb, hres⟩ := moveTile_absent_aux s t habs
  refine ⟨hb, ?_, ?_⟩
  · rcases hres with h0 | ⟨_, h1, h2, h3⟩
    · exact Or.inl h0
    · exact Or.inr ⟨h1, h2, h3⟩
  · intro n hv
    rcases hres with h0 | ⟨_, h1, h2, _⟩
    · exact h0
    · exfalso
      rw [hv.2.2.2.1] at h2
      obtain ⟨p, hp, hbp, _⟩ :=
        validBoard_position n s hv t ((mem_tileValues n t).mpr (Or.inr ⟨h1, h2⟩))
      exact habs p (hv.1 ▸ hp) hbp

/-- C18 amended, on the board 8 7 6 / 5 _ 4 / 3 2 1 with the absent tile 9. -/
theorem moveTile_absent_tile_witness :
    (moveTile 9 (sessionOfRows [[8, 7, 6], [5, -1, 4], [3, 2, 1]])).2.board =
        (sessionOfRows [[8, 7, 6], [5, -1, 4], [3, 2, 1]]).board ∧
      ((moveTile 9 (sessionOfRows [[8, 7, 6], [5, -1, 4], [3, 2, 1]])).1 = 0 ∨
        (1 ≤ (9 : Int) ∧ 9 ≤ (sessionOfRows [[8, 7, 6], [5, -1, 4], [3, 2, 1]]).maxTileValue ∧
          ∃ pe ∈ cellIndices (sessionOfRows [[8, 7, 6], [5, -1, 4], [3, 2, 1]]).boardSize,
            (sessionOfRows [[8, 7, 6], [5, -1, 4], [3, 2, 1]]).board pe.1 pe.2 = -1 ∧
            adjacentCells (sessionOfRows [[8, 7, 6], [5, -1, 4], [3, 2, 1]]).location pe)) ∧
      (∀ n : Int, ValidBoard n (sessionOfRows [[8, 7, 6], [5, -1, 4], [3, 2, 1]]) →
        (moveTile 9 (sessionOfRows [[8, 7, 6], [5, -1, 4], [3, 2, 1]])).1 = 0) :=
  moveTile_absent_tile (sessionOfRows [[8, 7, 6], [5, -1, 4], [3, 2, 1]]) 9 (by decide)

/-! ## Generation as first occurrences -/

theorem eraseDups_loop_eq (l : List Int) :
    ∀ seen : List Int, List.eraseDups.loop l seen = seen.reverse ++ firstFrom seen l := by
  induction l with
  | nil => intro seen; simp [List.eraseDups.loop, firstFrom]
  | cons x xs ih =>
    intro seen
    by_cases hx : x ∈ seen
    · have he : seen.elem x = true := by simpa [List.elem_eq_mem] using hx
      simp only [List.eraseDups.loop, he, firstFrom, hx, if_true]
      exact ih seen
    · have he : seen.elem x = false := by simpa [List.elem_eq_mem] using hx
      simp only [List.eraseDups.loop, he, firstFrom, hx, if_false]
      rw [ih (x :: seen)]
      simp

theorem eraseDups_eq_firstFrom (l : List Int) : l.eraseDups = firstFrom [] l := by
  unfold List.eraseDups
  rw [eraseDups_loop_eq]
  simp

theorem firstFrom_skip (seen pre l : List Int) (h : ∀ x ∈ pre, x ∈ seen) :
    firstFrom seen (pre ++ l) = firstFrom seen l := by
  induction pre with
  | nil => rfl
  | cons x xs ih =>
    have hx := h x (List.mem_cons_self _ _)
    simp only [List.cons_append, firstFrom, hx, if_true]
    exact ih (fun y hy => h y (List.mem_cons_of_mem _ hy))

theorem firstFrom_mem (l : List Int) :
    ∀ (seen : List Int) (x : Int), x ∈ firstFrom seen l → x ∈ l ∧ x ∉ seen := by
  induction l with
  | nil => intro seen x h; simp [firstFrom] at h
  | cons y ys ih =>
    intro seen x h
    by_cases hy : y ∈ seen
    · simp only [firstFrom, hy, if_true] at h
      obtain ⟨h1, h2⟩ := ih seen x h
      exact ⟨List.mem_cons_of_mem _ h1, h2⟩
    · simp only [firstFrom, hy, if_false] at h
      rcases List.mem_cons.mp h with rfl | h
      · exact ⟨List.mem_cons_self _ _, hy⟩
      · obtain ⟨h1, h2⟩ := ih (y :: seen) x h
        exact ⟨List.mem_cons_of_mem _ h1, fun hc => h2 (List.mem_cons_of_mem _ hc)⟩

theorem firstFrom_nodup (l : List Int) : ∀ seen : List Int, (firstFrom seen l).Nodup := by
  induction l with
  | nil => intro seen; simp [firstFrom]
  | cons y ys ih =>
    intro seen
    by_cases hy : y ∈ seen
    · simp only [firstFrom, hy, if_true]; exact ih seen
    · simp only [firstFrom, hy, if_false]
      refine List.nodup_cons.mpr ⟨?_, ih _⟩
      intro hc
      exact (firstFrom_mem ys (y :: seen) y hc).2 (List.mem_cons_self _ _)

/-- The generation loops write, cell by cell, the initial values of the slots
the draws reach for the first time. -/
theorem setTilesLoop_firstFrom (mx : Int) (hm : 0 < mx + 1) (cells : List (Int × Int)) :
    ∀ (draws : List Nat) (pool : Int → Int) (b : Int → Int → Int) (pool2 : Int → Int)
      (b2 : Int → Int → Int) (seen : List Int),
      cells.Nodup → PoolInv (mx + 1) pool →
      (∀ k, 0 ≤ k → k < mx + 1 → (pool k = 0 ↔ k ∈ seen)) →
      setTilesLoop mx cells draws pool b = some (pool2, b2) →
      (cells.map fun p => b2 p.1 p.2) =
        ((firstFrom seen (draws.map fun (r : Nat) => (r : Int) % (mx + 1))).take
          cells.length).map poolValue := by
  induction cells with
  | nil => intro draws pool b pool2 b2 seen _ _ _ _; simp
  | cons p cs ih =>
    intro draws pool b pool2 b2 seen hnd hinv hseen h
    have hspec := setTilesLoop_spec mx hm (p :: cs) draws pool b pool2 b2 hnd hinv h
    simp only [setTilesLoop] at h
    cases hd : drawCandidate mx draws pool with
    | none => simp [hd] at h
    | some res =>
      obtain ⟨c, pool1, rest⟩ := res
      simp only [hd] at h
      obtain ⟨pre, r, hdr, hpre, hnz, hc, hp1⟩ :=
        drawCandidate_spec mx hm draws pool c pool1 rest hinv hd
      have hr0 : 0 ≤ (r : Int) % (mx + 1) := Int.emod_nonneg _ (by omega)
      have hr1 : (r : Int) % (mx + 1) < mx + 1 := Int.emod_lt_of_pos _ hm
      have hpcs : p ∉ cs := (List.nodup_cons.mp hnd).1
      have hinv1 : PoolInv (mx + 1) pool1 := hp1 ▸ poolInv_writeAt _ _ _ hinv
      have hseen1 : ∀ k, 0 ≤ k → k < mx + 1 →
          (pool1 k = 0 ↔ k ∈ (r : Int) % (mx + 1) :: seen) := by
        intro k k0 k1
        rw [hp1, List.mem_cons]
        unfold writeAt
        by_cases hk : k = (r : Int) % (mx + 1)
        · simp [hk]
        · simp only [hk, if_false, false_or]
          exact hseen k k0 k1
      have hrec := ih rest pool1 _ pool2 b2 _ (List.nodup_cons.mp hnd).2 hinv1 hseen1 h
      obtain ⟨_, _, i3, _, _⟩ := setTilesLoop_spec mx hm cs rest pool1 _ pool2 b2
        (List.nodup_cons.mp hnd).2 hinv1 h
      have hbp : b2 p.1 p.2 = poolValue ((r : Int) % (mx + 1)) := by
        rw [i3 p.1 p.2 hpcs, writeCell_same, hc]
      have hnotseen : (r : Int) % (mx + 1) ∉ seen := fun hc2 =>
        hnz ((hseen _ hr0 hr1).mpr hc2)
      have hfirst : firstFrom seen (draws.map fun (r : Nat) => (r : Int) % (mx + 1)) =
          (r : Int) % (mx + 1) ::
            firstFrom ((r : Int) % (mx + 1) :: seen)
              (rest.map fun (r : Nat) => (r : Int) % (mx + 1)) := by
        rw [hdr, List.map_append, firstFrom_skip]
        · simp only [List.map_cons, firstFrom, hnotseen, if_false]
        · intro x hx
          obtain ⟨q, hq, rfl⟩ := List.mem_map.mp hx
          have hq0 : 0 ≤ (q : Int) % (mx + 1) := Int.emod_nonneg _ (by omega)
          have hq1 : (q : Int) % (mx + 1) < mx + 1 := Int.emod_lt_of_pos _ hm
          exact (hseen _ hq0 hq1).mp (hpre q hq)
      rw [List.map_cons, hbp, hrec, hfirst, List.length_cons, List.take_succ_cons, List.map_cons]

/-- C19: for `N` in `[3,9]`, on a session prepared for size `N` and every
sequence of random indices, each in `[0, N*N-1]`, that contains every index at
least once, `setAllTiles` terminates and the board in row-major order is the
list of distinct indices in order of first appearance, index 0 standing for
Empty (-1) and index `i ≥ 1` for tile `i`. -/
theorem setAllTiles_first_occurrences (N : Int) (draws : List Nat) (s : Session)
    (h3 : 3 ≤ N) (h9 : N ≤ 9) (hsize : s.boardSize = N) (hmax : s.maxTileValue = N * N - 1)
    (hrange : ∀ r ∈ draws, (r : Int) < N * N) (hcov : Covers (N * N) draws) :
    ∃ s2, setAllTiles draws s = some s2 ∧
      boardCells s2 = ((draws.map fun (r : Nat) => (r : Int)).eraseDups).map poolValue := by
  have hm : 0 < s.maxTileValue + 1 := by rw [hmax]; nlinarith
  have hmm : s.maxTileValue + 1 = N * N := by rw [hmax]; ring
  have hsome := setAllTiles_isSome N (by omega) draws s hsize hmax hcov
  cases hs : setAllTiles draws s with
  | none => rw [hs] at hsome; simp at hsome
  | some s2 =>
    refine ⟨s2, rfl, ?_⟩
    unfold setAllTiles at hs
    cases hl : setTilesLoop s.maxTileValue (cellIndices s.boardSize) draws
        (fillRandomPool s).randomPool s.board with
    | none => simp [hl] at hs
    | some res =>
      obtain ⟨pool2, b2⟩ := res
      simp only [hl, Option.some.injEq] at hs
      subst hs
      have hseen : ∀ k, 0 ≤ k → k < s.maxTileValue + 1 →
          ((fillRandomPool s).randomPool k = 0 ↔ k ∈ ([] : List Int)) := by
        intro k k0 k1
        rw [fillRandomPool_slot s k k0 (by omega)]
        simp [poolValue_ne_zero]
      have hmain := setTilesLoop_firstFrom s.maxTileValue hm (cellIndices s.boardSize) draws
        _ _ pool2 b2 [] (nodup_cellIndices _) (poolInv_fill s) hseen hl
      have hidx : (draws.map fun (r : Nat) => (r : Int) % (s.maxTileValue + 1)) =
          draws.map fun (r : Nat) => (r : Int) := by
        apply List.map_congr_left
        intro r hr
        rw [hmm]
        exact Int.emod_eq_of_lt (by omega) (hrange r hr)
      rw [hidx, ← eraseDups_eq_firstFrom] at hmain
      have hlen1 : ((draws.map fun (r : Nat) => (r : Int)).eraseDups).length ≤
          (cellIndices s.boardSize).length := by
        rw [eraseDups_eq_firstFrom]
        have hsub : firstFrom [] (draws.map fun (r : Nat) => (r : Int)) ⊆ intRange (N * N) := by
          intro x hx
          obtain ⟨hx1, _⟩ := firstFrom_mem _ _ x hx
          obtain ⟨r, hr, rfl⟩ := List.mem_map.mp hx1
          exact (mem_intRange _ _).mpr ⟨by omega, hrange r hr⟩
        have hle := ((firstFrom_nodup _ []).subperm hsub).length_le
        rw [length_cellIndices, hsize]
        unfold intRange at hle
        rw [length_intRangeFrom] at hle
        have h2 : ((N.toNat * N.toNat : Nat) : Int) = N * N := by
          push_cast
          rw [Int.toNat_of_nonneg (by omega)]
        have h1 : (0 : Int) ≤ N * N := by nlinarith
        omega
      rw [List.take_of_length_le hlen1] at hmain
      exact hmain

/-- C19 at `N = 3` with the draws 4 4 0 8 0 1 2 3 5 5 6 7. -/
theorem setAllTiles_first_occurrences_witness :
    ∃ s2, setAllTiles [4, 4, 0, 8, 0, 1, 2, 3, 5, 5, 6, 7]
        (setBoardSizeAndValues 3 startup) = some s2 ∧
      boardCells s2 =
        (([4, 4, 0, 8, 0, 1, 2, 3, 5, 5, 6, 7].map fun (r : Nat) => (r : Int)).eraseDups).map
          poolValue :=
  setAllTiles_first_occurrences 3 [4, 4, 0, 8, 0, 1, 2, 3, 5, 5, 6, 7]
    (setBoardSizeAndValues 3 startup) (by decide) (by decide) rfl rfl (by decide) (by decide)

/-! ## Server cycle -/

theorem serverCycle_shape (recieved : Command) (env : CycleEnv) (st : Server)
    (out : List Int) (st1 : Server) (h : serverCycle recieved env st = some (out, st1)) :
    ∃ (s1 : Session) (rest : List Int), cycleTop env st.session = some (isWon st.session, s1) ∧
      out = isWon st.session :: rest ∧ CycleShape recieved env st.files s1 rest st1 := by
  unfold serverCycle at h
  simp only at h
  unfold cycleTop
  cases hw : (if isWon st.session = 1 then
      initializeGame 4 env.winFresh env.winDraws st.session else some (0, st.session)) with
  | none => rw [hw] at h; simp at h
  | some res =>
    obtain ⟨r, s1⟩ := res
    rw [hw] at h
    simp only
    cases recieved with
    | print =>
      simp only [Option.some.injEq, Prod.mk.injEq] at h
      exact ⟨s1, _, rfl, h.1.symm, rfl, h.2.symm⟩
    | save fileName =>
      simp only [Option.some.injEq, Prod.mk.injEq] at h
      exact ⟨s1, _, rfl, h.1.symm, rfl, h.2.symm⟩
    | load fileName =>
      cases hl : loadGame fileName env.fresh st.files s1 with
      | none => simp [hl] at h
      | some res2 =>
        obtain ⟨ok, s2⟩ := res2
        simp only [hl, Option.some.injEq, Prod.mk.injEq] at h
        exact ⟨s1, _, rfl, h.1.symm, ok, s2, hl, rfl, h.2.symm⟩
    | new newSize =>
      cases hl : initializeGame newSize env.fresh env.draws s1 with
      | none => simp [hl] at h
      | some res2 =>
        obtain ⟨ok, s2⟩ := res2
        simp only [hl, Option.some.injEq, Prod.mk.injEq] at h
        exact ⟨s1, _, rfl, h.1.symm, ok, s2, hl, rfl, h.2.symm⟩
    | move tileToMove =>
      simp only [Option.some.injEq, Prod.mk.injEq] at h
      exact ⟨s1, _, rfl, h.1.symm, rfl, h.2.symm⟩
    | noAction =>
      simp only [Option.some.injEq, Prod.mk.injEq] at h
      exact ⟨s1, _, rfl, h.1.symm, rfl, h.2.symm⟩

theorem cycleTop_not_won (env : CycleEnv) (s : Session) (h : isWon s ≠ 1) :
    cycleTop env s = some (isWon s, s) := by
  unfold cycleTop
  simp [h]

theorem countLoop_ge (fuel : Nat) :
    ∀ (f : List Char) (e : Bool) (k : Int), k ≤ countLoop fuel f e k := by
  induction fuel with
  | zero => intro f e k; simp [countLoop]
  | succ n ih =>
    intro f e k
    simp only [countLoop]
    split
    · exact le_refl k
    · have := ih (scanToken f).1 (scanToken f).2 (k + 1)
      omega

/-- `loadGame` returns on every name that holds readable text: it makes no
random draw. -/
theorem loadGame_isSome (path : String) (fresh : Int → Int → Int) (fs : FileSys)
    (s : Session) (text : List Char) (hc : fs.content path = some text) :
    ∃ ok s2, loadGame path fresh fs s = some (ok, s2) := by
  have hsize : loadBoardSize path fs =
      SizeResult.returns (countLoop (text.length + 2) text false 0 - 1) := by
    unfold loadBoardSize
    rw [hc]
  have hne : ¬ (countLoop (text.length + 2) text false 0 - 1 = -1) := by
    have h2 : countLoop (text.length + 2) text false 0 =
        countLoop (text.length + 1) (scanToken text).1 (scanToken text).2 (0 + 1) := by
      simp [countLoop]
    have := countLoop_ge (text.length + 1) (scanToken text).1 (scanToken text).2 (0 + 1)
    omega
  by_cases hr : intSqrt (countLoop (text.length + 2) text false 0 - 1) < 3 ∨
      intSqrt (countLoop (text.length + 2) text false 0 - 1) > 9
  · unfold loadGame
    simp only [hsize, hne, if_false]
    rw [initializeGame_reject _ _ _ _ hr]
    exact ⟨_, _, rfl⟩
  · obtain ⟨s2, h2⟩ := initializeGame_isSome
      (intSqrt (countLoop (text.length + 2) text false 0 - 1))
      (by omega) (by omega) fresh [] { s with isLoadingGame := 1 } (Or.inl rfl)
    unfold loadGame
    simp only [hsize, hne, if_false, h2]
    exact ⟨_, _, rfl⟩

/-- One pass of the server loop finishes when the draws of the pass reach
every slot of every pool they may be used for and, for a Load, the name holds
readable text. -/
theorem serverCycle_isSome (recieved : Command) (env : CycleEnv) (st : Server)
    (hw : Covers 16 env.winDraws)
    (hd : ∀ n : Int, 3 ≤ n → n ≤ 9 → Covers (n * n) env.draws)
    (hf : ∀ fileName, recieved = Command.load fileName →
      (st.files.content fileName).isSome = true) :
    ∃ out st1, serverCycle recieved env st = some (out, st1) := by
  have htop : ∃ r s1, (if isWon st.session = 1 then
      initializeGame 4 env.winFresh env.winDraws st.session else some (0, st.session)) =
      some (r, s1) := by
    by_cases hwon : isWon st.session = 1
    · obtain ⟨s1, h1⟩ := initializeGame_isSome 4 (by decide) (by decide) env.winFresh
        env.winDraws st.session (Or.inr hw)
      exact ⟨1, s1, by simp [hwon, h1]⟩
    · exact ⟨0, st.session, by simp [hwon]⟩
  obtain ⟨r, s1, htop⟩ := htop
  unfold serverCycle
  simp only [htop]
  cases recieved with
  | print => exact ⟨_, _, rfl⟩
  | save fileName => exact ⟨_, _, rfl⟩
  | load fileName =>
    obtain ⟨text, htext⟩ := Option.isSome_iff_exists.mp (hf fileName rfl)
    obtain ⟨ok, s2, hl⟩ := loadGame_isSome fileName env.fresh st.files s1 text htext
    simp only [hl]
    exact ⟨_, _, rfl⟩
  | new newSize =>
    have hi : ∃ ok s2, initializeGame newSize env.fresh env.draws s1 = some (ok, s2) := by
      by_cases hr : newSize < 3 ∨ newSize > 9
      · exact ⟨0, s1, initializeGame_reject _ _ _ _ hr⟩
      · obtain ⟨s2, h2⟩ := initializeGame_isSome newSize (by omega) (by omega) env.fresh
          env.draws s1 (Or.inr (hd newSize (by omega) (by omega)))
        exact ⟨1, s2, h2⟩
    obtain ⟨ok, s2, hl⟩ := hi
    simp only [hl]
    exact ⟨_, _, rfl⟩
  | move tileToMove => exact ⟨_, _, rfl⟩
  | noAction => exact ⟨_, _, rfl⟩

theorem covers_range (m : Int) (n : Nat) (h : m ≤ n) : Covers m (List.range n) := by
  intro k hk
  obtain ⟨k0, k1⟩ := (mem_intRange m k).mp hk
  refine ⟨k.toNat, List.mem_range.mpr (by omega), ?_⟩
  rw [Int.toNat_of_nonneg k0]
  exact Int.emod_eq_of_lt k0 k1

theorem fairEnv_covers : Covers 16 fairEnv.winDraws ∧
    ∀ n : Int, 3 ≤ n → n ≤ 9 → Covers (n * n) fairEnv.draws := by
  refine ⟨covers_range 16 16 (by decide), ?_⟩
  intro n h3 h9
  exact covers_range (n * n) 81 (by push_cast; nlinarith)

/-- What a completed pass of the server loop writes: first the win flag
`isWon()` of the board at the top of the pass, then for Print the board size
`N` and the `N*N` tile values in row-major order, for Save, Load, New and Move
one success flag equal to the result of the operation, and for NoAction
nothing, the session staying as it was.  The pass is completed when its draws
reach every pool slot and, for a Load, the name holds readable text. -/
theorem serverCycle_completed (recieved : Command) (env : CycleEnv) (st : Server) :
    (∀ out st1, serverCycle recieved env st = some (out, st1) →
      ∃ (s1 : Session) (rest : List Int),
        cycleTop env st.session = some (isWon st.session, s1) ∧
        out = isWon st.session :: rest ∧
        CycleShape recieved env st.files s1 rest st1 ∧
        (recieved = Command.print →
          rest.length = 1 + s1.boardSize.toNat * s1.boardSize.toNat) ∧
        (isWon st.session ≠ 1 → s1 = st.session)) ∧
    (Covers 16 env.winDraws → (∀ n : Int, 3 ≤ n → n ≤ 9 → Covers (n * n) env.draws) →
      (∀ fileName, recieved = Command.load fileName →
        (st.files.content fileName).isSome = true) →
      ∃ out st1, serverCycle recieved env st = some (out, st1)) := by
  refine ⟨?_, serverCycle_isSome recieved env st⟩
  intro out st1 h
  obtain ⟨s1, rest, h1, h2, h3⟩ := serverCycle_shape recieved env st out st1 h
  refine ⟨s1, rest, h1, h2, h3, ?_, ?_⟩
  · intro hp
    subst hp
    obtain ⟨hr, _⟩ := h3
    rw [hr, List.length_cons, length_boardCells s1.boardSize s1 rfl]
    omega
  · intro hnw
    rw [cycleTop_not_won env st.session hnw] at h1
    simp only [Option.some.injEq, Prod.mk.injEq, true_and] at h1
    exact h1.symm

/-- C12, the code at a failing input: on the board 1 2 3 / 4 5 6 / 7 8 _ with
no file `t1.txt`, the pass for Load `t1.txt` writes the win flag 0 and nothing
else: `loadGame` does not return (the process is killed in `fclose(NULL)`), so
no success flag is written and the pass is not completed. -/
theorem serverCycle_load_missing_file :
    noFiles.content "t1.txt" = none ∧
      isWon (sessionOfRows [[1, 2, 3], [4, 5, 6], [7, 8, -1]]) = 0 ∧
      (loadGame "t1.txt" fairEnv.fresh noFiles
        (sessionOfRows [[1, 2, 3], [4, 5, 6], [7, 8, -1]])).isSome = false ∧
      (serverCycle (Command.load "t1.txt") fairEnv
        ⟨sessionOfRows [[1, 2, 3], [4, 5, 6], [7, 8, -1]], noFiles⟩).isSome = false ∧
      cycleWrites (Command.load "t1.txt") fairEnv
        ⟨sessionOfRows [[1, 2, 3], [4, 5, 6], [7, 8, -1]], noFiles⟩ = [0] := by
  decide

/-! ## Client and server in step -/

/-- For every menu character other than `q`, the items the client writes on
the command pipe are a 4-byte tag in the shared numbering followed by the
payload of that command (99 bytes of file name, one 4-byte integer, or
nothing), they are exactly what the server reads for that tag, and the number
of 4-byte values the server writes in a completed pass equals the number the
client reads in its pass. -/
theorem client_server_fields (userInput : Char) (fileName : String) (number : Int)
    (env : CycleEnv) (st : Server) (hq : userInput ≠ 'q') :
    (clientWrites userInput fileName number).head? =
        some (Field.word (clientCommand userInput fileName number).tag) ∧
      (clientWrites userInput fileName number).map Field.width =
        4 :: payloadWidths (clientCommand userInput fileName number) ∧
      serverReads (clientWrites userInput fileName number) =
        some (clientCommand userInput fileName number, []) ∧
      ∀ out st1, serverCycle (clientCommand userInput fileName number) env st = some (out, st1) →
        out.length = clientReads userInput out := by
  by_cases hp : userInput = 'p'
  · subst hp
    refine ⟨rfl, rfl, rfl, ?_⟩
    intro out st1 h
    obtain ⟨s1, rest, _, h2, h3⟩ := serverCycle_shape Command.print env st out st1 h
    obtain ⟨hr, _⟩ := h3
    subst hr
    subst h2
    simp only [clientReads, if_true, List.length_cons, List.getD_cons_succ, List.getD_cons_zero,
      length_boardCells s1.boardSize s1 rfl]
    omega
  · by_cases hs : userInput = 's'
    · subst hs
      refine ⟨rfl, rfl, rfl, ?_⟩
      intro out st1 h
      obtain ⟨s1, rest, _, h2, h3⟩ := serverCycle_shape (Command.save fileName) env st out st1 h
      obtain ⟨hr, _⟩ := h3
      subst hr; subst h2
      rfl
    · by_cases hl : userInput = 'l'
      · subst hl
        refine ⟨rfl, rfl, rfl, ?_⟩
        intro out st1 h
        obtain ⟨s1, rest, _, h2, h3⟩ := serverCycle_shape (Command.load fileName) env st out st1 h
        obtain ⟨ok, s2, _, hr, _⟩ := h3
        subst hr; subst h2
        rfl
      · by_cases hn : userInput = 'n'
        · subst hn
          refine ⟨rfl, rfl, rfl, ?_⟩
          intro out st1 h
          obtain ⟨s1, rest, _, h2, h3⟩ := serverCycle_shape (Command.new number) env st out st1 h
          obtain ⟨ok, s2, _, hr, _⟩ := h3
          subst hr; subst h2
          rfl
        · by_cases hmv : userInput = 'm'
          · subst hmv
            refine ⟨rfl, rfl, rfl, ?_⟩
            intro out st1 h
            obtain ⟨s1, rest, _, h2, h3⟩ :=
              serverCycle_shape (Command.move number) env st out st1 h
            obtain ⟨hr, _⟩ := h3
            subst hr; subst h2
            rfl
          · have hc : clientCommand userInput fileName number = Command.noAction := by
              simp [clientCommand, hp, hs, hl, hn, hmv]
            have hw : clientWrites userInput fileName number = [Field.word 5] := by
              simp [clientWrites, hp, hq, hs, hl, hn, hmv]
            rw [hc, hw]
            refine ⟨rfl, rfl, rfl, ?_⟩
            intro out st1 h
            obtain ⟨s1, rest, _, h2, h3⟩ := serverCycle_shape Command.noAction env st out st1 h
            obtain ⟨hr, _⟩ := h3
            subst hr; subst h2
            simp [clientReads, hp, hq, hs, hl, hn, hmv]

/-- When the draws of the pass reach every pool slot and, for `l`, the name
holds readable text, the pass for a menu character other than `q` is
completed and the server writes as many 4-byte values as the client reads. -/
theorem client_server_counts (userInput : Char) (fileName : String) (number : Int)
    (env : CycleEnv) (st : Server) (hq : userInput ≠ 'q') (hw : Covers 16 env.winDraws)
    (hd : ∀ n : Int, 3 ≤ n → n ≤ 9 → Covers (n * n) env.draws)
    (hf : ∀ name, clientCommand userInput fileName number = Command.load name →
      (st.files.content name).isSome = true) :
    ∃ out st1, serverCycle (clientCommand userInput fileName number) env st = some (out, st1) ∧
      out.length = clientReads userInput out := by
  obtain ⟨out, st1, h⟩ :=
    serverCycle_isSome (clientCommand userInput fileName number) env st hw hd hf
  exact ⟨out, st1, h,
    (client_server_fields userInput fileName number env st hq).2.2.2 out st1 h⟩

/-- C15, the code at a failing input: for the menu character `l` and the name
`t1.txt` of a file that does not exist, the client writes the tag 2 and the
99-byte name, the server reads them as Load `t1.txt`, and the client then
reads two values while the server writes one, the win flag, before it is
killed in `fclose(NULL)`. -/
theorem client_server_load_missing_file :
    noFiles.content "t1.txt" = none ∧
      (clientWrites 'l' "t1.txt" 0).map Field.width = [4, 99] ∧
      (serverReads (clientWrites 'l' "t1.txt" 0)).map (fun r => (r.1.tag, r.2.length)) =
        some (2, 0) ∧
      (serverCycle (clientCommand 'l' "t1.txt" 0) fairEnv
        ⟨sessionOfRows [[1, 2, 3], [4, 5, 6], [7, 8, -1]], noFiles⟩).isSome = false ∧
      (cycleWrites (clientCommand 'l' "t1.txt" 0) fairEnv
        ⟨sessionOfRows [[1, 2, 3], [4, 5, 6], [7, 8, -1]], noFiles⟩).length = 1 ∧
      clientReads 'l' (cycleWrites (clientCommand 'l' "t1.txt" 0) fairEnv
        ⟨sessionOfRows [[1, 2, 3], [4, 5, 6], [7, 8, -1]], noFiles⟩) = 2 := by
  decide

/-! ## Winning boards -/

theorem intRangeFrom_append (a : Int) (m n : Nat) :
    intRangeFrom a (a + m) ++ intRangeFrom (a + m) (a + m + n) = intRangeFrom a (a + (m + n : Nat)) := by
  unfold intRangeFrom
  have h1 : (a + (m : Int) - a).toNat = m := by omega
  have h2 : (a + (m : Int) + (n : Int) - (a + m)).toNat = n := by omega
  have h3 : (a + ((m + n : Nat) : Int) - a).toNat = m + n := by omega
  rw [h1, h2, h3, List.range_add, List.map_append, List.map_map]
  congr 1
  apply List.map_congr_left
  intro x _
  simp only [Function.comp, Nat.cast_add]
  ring

theorem flatMap_rows (N : Int) (hN : 0 ≤ N) (f : Int → Int) (m : Nat) :
    ((intRangeFrom 0 m).flatMap fun i => (intRange N).map fun j => f (i * N + j)) =
      (intRangeFrom 0 (m * N)).map f := by
  induction m with
  | zero => simp [intRangeFrom]
  | succ m ih =>
    have hsplit : intRangeFrom 0 ((m + 1 : Nat) : Int) = intRangeFrom 0 m ++ [(m : Int)] := by
      have := intRangeFrom_append 0 m 1
      simp only [zero_add] at this
      rw [← this]
      congr 1
      simp [intRangeFrom, List.range_succ]
    rw [hsplit, List.flatMap_append, ih, List.flatMap_singleton]
    obtain ⟨n, rfl⟩ := Int.eq_ofNat_of_zero_le hN
    have happ := intRangeFrom_append 0 (m * n) n
    simp only [zero_add] at happ
    have hrow : ((intRange (n : Int)).map fun j => f ((m : Int) * n + j)) =
        (intRangeFrom ((m * n : Nat) : Int) ((m * n : Nat) + n)).map f := by
      unfold intRange intRangeFrom
      rw [List.map_map, List.map_map]
      have e1 : ((n : Int) - 0).toNat = n := by omega
      have e2 : (((m * n : Nat) : Int) + (n : Int) - ((m * n : Nat) : Int)).toNat = n := by omega
      rw [e1, e2]
      apply List.map_congr_left
      intro x _
      simp only [Function.comp, zero_add, Nat.cast_mul]
    rw [hrow]
    have e3 : ((m : Int) * n) = ((m * n : Nat) : Int) := by push_cast; ring
    have e4 : (((m + 1 : Nat) : Int) * n) = ((m * n + n : Nat) : Int) := by push_cast; ring
    rw [e3, e4, ← List.map_append, happ]

theorem map_getD_range (l : List Int) : (List.range l.length).map (fun i => l.getD i 0) = l := by
  apply List.ext_getElem
  · simp
  · intro i h1 h2
    simp [List.getD_eq_getElem?_getD, h2]

/-- The cells of `sessionOfCells n l` are `l`. -/
theorem boardCells_sessionOfCells (n : Int) (hn : 0 ≤ n) (l : List Int)
    (hl : l.length = n.toNat * n.toNat) : boardCells (sessionOfCells n l) = l := by
  have e1 : ((n.toNat : Nat) : Int) = n := Int.toNat_of_nonneg hn
  have hrows := flatMap_rows n hn (fun k => l.getD k.toNat 0) n.toNat
  rw [e1] at hrows
  have hcells : boardCells (sessionOfCells n l) =
      (intRangeFrom 0 n).flatMap fun i =>
        (intRange n).map fun j => l.getD (i * n + j).toNat 0 := by
    unfold boardCells cellIndices intRange
    show ((intRangeFrom 0 n).flatMap fun i => (intRangeFrom 0 n).map fun j => (i, j)).map
      (fun p => l.getD (p.1 * n + p.2).toNat 0) = _
    rw [List.map_flatMap]
    apply List.flatMap_congr
    intro i _
    rw [List.map_map]
    rfl
  rw [hcells, hrows]
  unfold intRangeFrom
  rw [List.map_map]
  have e2 : (n * n - 0).toNat = l.length := by
    rw [hl]
    have : ((n.toNat * n.toNat : Nat) : Int) = n * n := by push_cast; rw [e1]
    omega
  rw [e2]
  conv_rhs => rw [← map_getD_range l]
  apply List.map_congr_left
  intro x _
  simp [Function.comp]

theorem withEmptyAt_split (l : List Int) (h : l.count (-1) = 1) :
    ∃ k, k ≤ (l.filter fun c => c ≠ -1).length ∧
      l = withEmptyAt (l.filter fun c => c ≠ -1) k := by
  induction l with
  | nil => simp at h
  | cons x xs ih =>
    by_cases hx : x = -1
    · subst hx
      have h0 : xs.count (-1) = 0 := by simpa using h
      have hnot : (-1 : Int) ∉ xs := List.count_eq_zero.mp h0
      have hf : xs.filter (fun c => c ≠ -1) = xs := by
        apply List.filter_eq_self.mpr
        intro a ha
        simp only [ne_eq, decide_not, Bool.not_eq_true', decide_eq_false_iff_not]
        intro hc; exact hnot (hc ▸ ha)
      refine ⟨0, Nat.zero_le _, ?_⟩
      have hf2 : (((-1 : Int)) :: xs).filter (fun c => c ≠ -1) = xs := by
        rw [List.filter_cons_of_neg (by simp), hf]
      rw [hf2]
      simp [withEmptyAt]
    · have h1 : xs.count (-1) = 1 := by
        rw [List.count_cons] at h
        have : ¬ (x == -1) = true := by simpa using hx
        simpa [this] using h
      obtain ⟨k, hk, hxs⟩ := ih h1
      have hf : (x :: xs).filter (fun c => c ≠ -1) = x :: xs.filter (fun c => c ≠ -1) := by
        simp [hx]
      refine ⟨k + 1, by rw [hf, List.length_cons]; omega, ?_⟩
      rw [hf]
      unfold withEmptyAt at hxs ⊢
      simp only [List.take_succ_cons, List.drop_succ_cons, List.cons_append]
      rw [← hxs]

theorem withEmptyAt_perm (d : List Int) (k : Nat) : (withEmptyAt d k).Perm ((-1) :: d) := by
  unfold withEmptyAt
  refine List.perm_middle.trans ?_
  rw [List.take_append_drop]

theorem withEmptyAt_filter (d : List Int) (hd : (-1 : Int) ∉ d) (k : Nat) :
    (withEmptyAt d k).filter (fun c => c ≠ -1) = d := by
  have hall : ∀ l : List Int, (∀ a ∈ l, a ∈ d) → l.filter (fun c => c ≠ -1) = l := by
    intro l hl
    apply List.filter_eq_self.mpr
    intro a ha
    simp only [ne_eq, decide_not, Bool.not_eq_true', decide_eq_false_iff_not]
    intro hc; exact hd (hc ▸ hl a ha)
  unfold withEmptyAt
  rw [List.filter_append, List.filter_cons_of_neg (by simp),
    hall _ (fun a ha => List.mem_of_mem_take ha), hall _ (fun a ha => List.mem_of_mem_drop ha),
    List.take_append_drop]

theorem withEmptyAt_indexOf (d : List Int) (hd : (-1 : Int) ∉ d) (k : Nat) (hk : k ≤ d.length) :
    (withEmptyAt d k).indexOf (-1) = k := by
  unfold withEmptyAt
  rw [List.indexOf_append_of_not_mem (fun hc => hd (List.mem_of_mem_take hc)),
    List.indexOf_cons_self, List.length_take]
  omega

theorem withEmptyAt_getD (d : List Int) (k : Nat) (hk : k ≤ d.length) :
    (withEmptyAt d k).getD k 0 = -1 := by
  unfold withEmptyAt
  have hlen : (d.take k).length = k := by rw [List.length_take]; omega
  rw [List.getD_eq_getElem?_getD, List.getElem?_append_right (by omega), hlen]
  simp

theorem countDown_perm (n : Int) (hn : 1 ≤ n) :
    (countDown (n * n - 1) (n * n - 1).toNat).Perm (intRangeFrom 1 (n * n)) := by
  apply (List.perm_ext_iff_of_nodup (nodup_countDown _ _) (nodup_intRangeFrom _ _)).mpr
  intro x
  rw [mem_countDown, mem_intRangeFrom]
  have h1 : (1 : Int) ≤ n * n := by nlinarith
  omega

/-- Every placement of Empty among the counted-down tiles is the board of a
valid session that `isWon` accepts. -/
theorem winning_session (n : Int) (hn : 1 ≤ n) (k : Nat) :
    ValidBoard n (sessionOfCells n (withEmptyAt (countDown (n * n - 1) (n * n - 1).toNat) k)) ∧
      isWon (sessionOfCells n (withEmptyAt (countDown (n * n - 1) (n * n - 1).toNat) k)) = 1 ∧
      boardCells (sessionOfCells n (withEmptyAt (countDown (n * n - 1) (n * n - 1).toNat) k)) =
        withEmptyAt (countDown (n * n - 1) (n * n - 1).toNat) k := by
  have h1 : (1 : Int) ≤ n * n := by nlinarith
  have hdlen : (countDown (n * n - 1) (n * n - 1).toNat).length = (n * n - 1).toNat := by
    simp [countDown]
  have hlen : (withEmptyAt (countDown (n * n - 1) (n * n - 1).toNat) k).length =
      n.toNat * n.toNat := by
    rw [(withEmptyAt_perm _ k).length_eq, List.length_cons, hdlen]
    have h2 : ((n.toNat * n.toNat : Nat) : Int) = n * n := by
      push_cast
      rw [Int.toNat_of_nonneg (by omega)]
    omega
  have hcells := boardCells_sessionOfCells n (by omega) _ hlen
  have hnot : (-1 : Int) ∉ countDown (n * n - 1) (n * n - 1).toNat := by
    rw [mem_countDown]; omega
  have hvalid : ValidBoard n
      (sessionOfCells n (withEmptyAt (countDown (n * n - 1) (n * n - 1).toNat) k)) := by
    refine ⟨rfl, rfl, rfl, rfl, ?_⟩
    intro v hv
    rw [hcells]
    have hperm : (withEmptyAt (countDown (n * n - 1) (n * n - 1).toNat) k).Perm
        (tileValues n) :=
      (withEmptyAt_perm _ k).trans (List.Perm.cons _ (countDown_perm n hn))
    rw [hperm.count_eq]
    exact List.count_eq_one_of_mem (nodup_tileValues n) hv
  refine ⟨hvalid, ?_, hcells⟩
  rw [isWon_iff_countDown n hn _ hvalid]
  unfold numberedTiles
  rw [hcells]
  exact withEmptyAt_filter _ hnot k

/-- C14: on an N x N board with the permutation invariant (N at least 1),
`isWon` returns 1 exactly when the non-Empty tiles in row-major order are
N*N-1, N*N-2, ..., 1; Empty may sit in any of the N*N cells of a winning
board; and the winning valid boards, as row-major cell lists, number N*N. -/
theorem isWon_descending_any_empty (N : Int) (hN : 1 ≤ N) :
    (∀ s, ValidBoard N s →
      (isWon s = 1 ↔ numberedTiles s = countDown (N * N - 1) (N * N - 1).toNat)) ∧
    (∀ p ∈ cellIndices N, ∃ s, ValidBoard N s ∧ isWon s = 1 ∧
      s.board p.1 p.2 = emptyTileValue) ∧
    Set.ncard {l | ∃ s, ValidBoard N s ∧ isWon s = 1 ∧ boardCells s = l} = (N * N).toNat := by
  have h1 : (1 : Int) ≤ N * N := by nlinarith
  have hdlen : (countDown (N * N - 1) (N * N - 1).toNat).length = (N * N - 1).toNat := by
    simp [countDown]
  have hnot : (-1 : Int) ∉ countDown (N * N - 1) (N * N - 1).toNat := by
    rw [mem_countDown]; omega
  refine ⟨fun s hv => isWon_iff_countDown N hN s hv, ?_, ?_⟩
  · rintro ⟨i, j⟩ hp
    obtain ⟨⟨hi0, hi1⟩, hj0, hj1⟩ := (mem_cellIndices N (i, j)).mp hp
    simp only at hi0 hi1 hj0 hj1
    obtain ⟨hv, hw, -⟩ := winning_session N hN (i * N + j).toNat
    refine ⟨_, hv, hw, ?_⟩
    show (withEmptyAt (countDown (N * N - 1) (N * N - 1).toNat) (i * N + j).toNat).getD
      (i * N + j).toNat 0 = -1
    apply withEmptyAt_getD
    rw [hdlen]
    have h2 : i * N + j ≤ N * N - 1 := by nlinarith
    have h3 : 0 ≤ i * N + j := by nlinarith
    omega
  · have hset : {l | ∃ s, ValidBoard N s ∧ isWon s = 1 ∧ boardCells s = l} =
        ((Finset.range ((N * N - 1).toNat + 1)).image
          (withEmptyAt (countDown (N * N - 1) (N * N - 1).toNat)) : Finset (List Int)) := by
      ext l
      simp only [Set.mem_setOf_eq, Finset.coe_image, Finset.coe_range, Set.mem_image,
        Set.mem_Iio]
      constructor
      · rintro ⟨s, hv, hw, rfl⟩
        have hnum := (isWon_iff_countDown N hN s hv).mp hw
        have hc : (boardCells s).count (-1) = 1 :=
          hv.2.2.2.2 (-1) (by simp [tileValues, emptyTileValue])
        obtain ⟨k, hk, hsplit⟩ := withEmptyAt_split _ hc
        unfold numberedTiles at hnum
        have hnum2 : (boardCells s).filter (fun c => c ≠ -1) =
            countDown (N * N - 1) (N * N - 1).toNat := hnum
        rw [hnum2] at hk hsplit
        rw [hdlen] at hk
        exact ⟨k, by omega, hsplit.symm⟩
      · rintro ⟨k, -, rfl⟩
        obtain ⟨hv, hw, hc⟩ := winning_session N hN k
        exact ⟨_, hv, hw, hc⟩
    rw [hset, Set.ncard_coe_Finset, Finset.card_image_of_injOn, Finset.card_range]
    · omega
    · intro a ha b hb hab
      have ha2 : a ≤ (countDown (N * N - 1) (N * N - 1).toNat).length := by
        rw [hdlen]; simpa [Nat.lt_succ_iff] using ha
      have hb2 : b ≤ (countDown (N * N - 1) (N * N - 1).toNat).length := by
        rw [hdlen]; simpa [Nat.lt_succ_iff] using hb
      have hidx := congrArg (fun l => List.indexOf (-1 : Int) l) hab
      have hidx2 : List.indexOf (-1 : Int)
            (withEmptyAt (countDown (N * N - 1) (N * N - 1).toNat) a) =
          List.indexOf (-1 : Int)
            (withEmptyAt (countDown (N * N - 1) (N * N - 1).toNat) b) := hidx
      rw [withEmptyAt_indexOf _ hnot _ ha2, withEmptyAt_indexOf _ hnot _ hb2] at hidx2
      exact hidx2

theorem isWon_descending_any_empty_witness :
    (1 : Int) ≤ 3 ∧
    ((∀ s, ValidBoard 3 s →
      (isWon s = 1 ↔ numberedTiles s = countDown (3 * 3 - 1) (3 * 3 - 1 : Int).toNat)) ∧
    (∀ p ∈ cellIndices 3, ∃ s, ValidBoard 3 s ∧ isWon s = 1 ∧
      s.board p.1 p.2 = emptyTileValue) ∧
    Set.ncard {l | ∃ s, ValidBoard 3 s ∧ isWon s = 1 ∧ boardCells s = l} =
      (3 * 3 : Int).toNat) :=
  ⟨by decide, isWon_descending_any_empty 3 (by decide)⟩

/-! ## Loading arbitrary token files -/

theorem adjacentCells_symm (pt pe : Int × Int) (h : adjacentCells pt pe) :
    adjacentCells pe pt := by
  unfold adjacentCells at h ⊢
  omega

theorem writeCell_exchange_twice (b : Int → Int → Int) (pt pe : Int × Int) (t : Int)
    (hbt : b pt.1 pt.2 = t) (hbe : b pe.1 pe.2 = -1) :
    writeCell (writeCell (writeCell (writeCell b pe.1 pe.2 t) pt.1 pt.2 (-1)) pt.1 pt.2 t)
      pe.1 pe.2 (-1) = b := by
  funext i j
  unfold writeCell
  by_cases h1 : i = pe.1 ∧ j = pe.2
  · simp only [h1, and_self, if_true]
    exact hbe.symm
  · by_cases h2 : i = pt.1 ∧ j = pt.2
    · obtain ⟨hi, hj⟩ := h2
      subst hi hj
      simp only [h1, and_self, if_true, if_false]
      exact hbt.symm
    · simp only [h1, h2, if_false]

/-- C21: on a board with the permutation invariant, for a tile `t` that
`isMoveValid` accepts, after `moveTile(t)` the tile is accepted again, and a
second `moveTile(t)` returns 1 and leaves the board as it was before the
first move, cell for cell, with the same board size. -/
theorem moveTile_twice_restores (N : Int) (s : Session) (t : Int) (hv : ValidBoard N s)
    (hlegal : (isMoveValid t s).1 = 1) :
    (isMoveValid t (moveTile t s).2).1 = 1 ∧
      (moveTile t (moveTile t s).2).1 = 1 ∧
      (∀ i j : Int, (moveTile t (moveTile t s).2).2.board i j = s.board i j) ∧
      (moveTile t (moveTile t s).2).2.boardSize = s.boardSize := by
  obtain ⟨h1, h2, pt, pe, hpt, hbt, hpe, hbe, hadj⟩ := isMoveValid_legal_data N s t hv hlegal
  have hne : (pe.1, pe.2) ≠ (pt.1, pt.2) := by
    intro he
    rw [Prod.mk.eta, Prod.mk.eta] at he
    rw [he, hbt] at hbe
    omega
  have hv2 := (moveTile_valid N s t hv).1
  have hm := moveTile_eval N s t hv h1 h2 pt pe hpt hbt hpe hbe hadj
  rw [hm] at hv2 ⊢
  simp only at hv2 ⊢
  have hbt2 : ({ s with board := writeCell (writeCell s.board pe.1 pe.2 t) pt.1 pt.2 (-1),
                        location := pe } : Session).board pe.1 pe.2 = t := by
    show writeCell (writeCell s.board pe.1 pe.2 t) pt.1 pt.2 (-1) pe.1 pe.2 = t
    rw [writeCell_other _ _ _ _ _ _ hne, writeCell_same]
  have hbe2 : ({ s with board := writeCell (writeCell s.board pe.1 pe.2 t) pt.1 pt.2 (-1),
                        location := pe } : Session).board pt.1 pt.2 = -1 := by
    show writeCell (writeCell s.board pe.1 pe.2 t) pt.1 pt.2 (-1) pt.1 pt.2 = -1
    rw [writeCell_same]
  have hadj2 := adjacentCells_symm pt pe hadj
  rw [isMoveValid_eval N _ t hv2 h1 h2 pe pt hpe hbt2 hpt hbe2,
    moveTile_eval N _ t hv2 h1 h2 pe pt hpe hbt2 hpt hbe2 hadj2]
  refine ⟨by simp [hadj2], rfl, ?_, rfl⟩
  intro i j
  show writeCell (writeCell (writeCell (writeCell s.board pe.1 pe.2 t) pt.1 pt.2 (-1))
    pt.1 pt.2 t) pe.1 pe.2 (-1) i j = s.board i j
  rw [writeCell_exchange_twice s.board pt pe t hbt hbe]

/-- C21 on the board 8 7 6 / 5 _ 4 / 3 2 1 with the tile 7, above Empty. -/
theorem moveTile_twice_restores_witness :
    ValidBoard 3 (sessionOfRows [[8, 7, 6], [5, -1, 4], [3, 2, 1]]) ∧
      (isMoveValid 7 (sessionOfRows [[8, 7, 6], [5, -1, 4], [3, 2, 1]])).1 = 1 ∧
      (isMoveValid 7 (moveTile 7 (sessionOfRows [[8, 7, 6], [5, -1, 4], [3, 2, 1]])).2).1 = 1 ∧
      (moveTile 7 (moveTile 7 (sessionOfRows [[8, 7, 6], [5, -1, 4], [3, 2, 1]])).2).1 = 1 ∧
      (∀ i j : Int,
        (moveTile 7 (moveTile 7 (sessionOfRows [[8, 7, 6], [5, -1, 4], [3, 2, 1]])).2).2.board
          i j = (sessionOfRows [[8, 7, 6], [5, -1, 4], [3, 2, 1]]).board i j) ∧
      (moveTile 7 (moveTile 7 (sessionOfRows [[8, 7, 6], [5, -1, 4], [3, 2, 1]])).2).2.boardSize =
        (sessionOfRows [[8, 7, 6], [5, -1, 4], [3, 2, 1]]).boardSize :=
  ⟨by decide, by decide,
    moveTile_twice_restores 3 (sessionOfRows [[8, 7, 6], [5, -1, 4], [3, 2, 1]]) 7
      (by decide) (by decide)⟩

end SlidingTile
